import Mathlib

/-!
Verification development for the WoT compendium dictionary builder
(`to_dict.py`).  Texts (entry names, identifiers, chapter labels and
definition bodies) are modelled as `List Char`.  Backlink sets
(`set[str]` in the source) are modelled as `Finset (List Char)`.

The regular expressions of the source are transliterated into explicit
scan functions:
 * `\[([^]]*)\]\(#id\)`   (one pattern per identifier)  →  `tryLink` / `containsLink`
 * `([^_]*)_([^_]+)_`     (markdown emphasis)           →  `emphGo` / `emphSub`
 * `([^(]*[^( ]) *\(([^)]*)\) *(.*)`  (parenthetical)   →  `parseParens`
 * `[a-z]{1,2}'(.*)`      (particle)                    →  `altPart`
Recursive rewriters take an explicit fuel argument (the length of the
input suffices) so that all definitions compute by kernel reduction.
-/

/-- Named character constants used throughout, to keep scans readable. -/
def und : Char := '_'

def lbrack : Char := '['

def rbrack : Char := ']'

def lpar : Char := '('

def rpar : Char := ')'

def hashc : Char := '#'

def ltc : Char := '<'

def spc : Char := ' '

def apos : Char := Char.ofNat 39

/-- Split a list at the first occurrence of `ch`: returns the part before
(which does not contain `ch`) and the part after. -/
def splitAtFirst (ch : Char) : List Char → Option (List Char × List Char)
  | [] => none
  | c :: t =>
    if c = ch then some ([], t)
    else
      match splitAtFirst ch t with
      | none => none
      | some (a, b) => some (c :: a, b)

/-- If `p` is a leading segment of `s`, return the rest. -/
def stripPre : List Char → List Char → Option (List Char)
  | [], s => some s
  | _ :: _, [] => none
  | p :: ps, c :: cs => if p = c then stripPre ps cs else none

/-- The replacement markup of the emphasis pass (opening part). -/
def emOpen : List Char := ("<em class=\"dict-emphasis\">").data

/-- The replacement markup of the emphasis pass (closing part). -/
def emClose : List Char := ("</em>").data

/-- One fuel step of the emphasis substitution
`re.sub(r"([^_]*)_([^_]+)_", r"\1<em class=\"dict-emphasis\">\2</em>", defi)`:
the leftmost match consumes the text up to the first underscore, the first
underscore, the (non-empty, underscore-free) emphasised text, and the
second underscore; when the two underscores are adjacent the match fails
there and scanning resumes at the second underscore. -/
def emphGo : Nat → List Char → List Char
  | 0, s => s
  | Nat.succ n, s =>
    match splitAtFirst und s with
    | none => s
    | some (a, b) =>
      match splitAtFirst und b with
      | none => s
      | some (c, d) =>
        if c = [] then a ++ und :: emphGo n (und :: d)
        else a ++ emOpen ++ c ++ emClose ++ emphGo n d

/-- The emphasis pass of `WoTDict._convert_defi_links`. -/
def emphSub (s : List Char) : List Char := emphGo s.length s

/-- Try to match the compiled pattern `\[([^]]*)\]\(#id\)` at the head of
`s`; on success return the label (group 1) and the rest of the input
after the match. -/
def tryLink (id : List Char) (s : List Char) : Option (List Char × List Char) :=
  match s with
  | [] => none
  | c :: t =>
    if c = lbrack then
      match splitAtFirst rbrack t with
      | none => none
      | some (label, rest0) =>
        match stripPre (lpar :: hashc :: (id ++ [rpar])) rest0 with
        | none => none
        | some rest => some (label, rest)
    else none

/-- `pattern.search(s)` for the link pattern of identifier `id`. -/
def containsLink (id : List Char) : List Char → Bool
  | [] => false
  | c :: t => (tryLink id (c :: t)).isSome || containsLink id t

/-- The replacement text
`<a class="dict-internal-link" href="bword://{name}">\1</a>`
with group 1 instantiated to `label`. -/
def aTagL (nm label : List Char) : List Char :=
  ("<a class=\"dict-internal-link\" href=\"bword://").data ++ nm
    ++ ("\">").data ++ label ++ ("</a>").data

/-- One fuel step of `pattern.sub` for the link pattern of `id` with target
name `nm`: scan left to right, replace each non-overlapping match. -/
def linkGo (id nm : List Char) : Nat → List Char → List Char
  | 0, s => s
  | Nat.succ n, s =>
    match s with
    | [] => []
    | c :: t =>
      match tryLink id (c :: t) with
      | some (label, rest) => aTagL nm label ++ linkGo id nm n rest
      | none => c :: linkGo id nm n t

/-- `pattern.sub(replacement, s)` for the link pattern of identifier `id`. -/
def linkSub (id nm s : List Char) : List Char := linkGo id nm s.length s

/-- `WoTDict._convert_defi_links`: first the emphasis pass, then one
substitution pass per entry of the link pattern table, in table order. -/
def convertDefiLinks (pats : List (List Char × List Char)) (defi : List Char) : List Char :=
  pats.foldl (fun d p => linkSub p.1 p.2 d) (emphSub defi)

/-- One record of a book's glossary JSON (`BookData` in the source). -/
structure BookData where
  id : List Char
  name : List Char
  chapter : List Char
  info : List Char
deriving DecidableEq

/-- One rendered per-book occurrence of an entry (`DictEntry` in the source). -/
structure DictEntry where
  book_number : Nat
  book_title : List Char
  chapter : List Char
  definition : List Char
  backlinks : Finset (List Char)
deriving DecidableEq

/-- Python `dict` lookup, on an association list in insertion order. -/
def lookupA {V : Type} (l : List (List Char × V)) (k : List Char) : Option V :=
  (l.find? (fun p => p.1 == k)).map (fun p => p.2)

/-- Python `dict` assignment `d[k] = v`: overwrite in place if the key is
present, else append. -/
def setEntry {V : Type} (l : List (List Char × V)) (k : List Char) (v : V) :
    List (List Char × V) :=
  if l.any (fun p => p.1 == k) then
    l.map (fun p => if p.1 == k then (k, v) else p)
  else l ++ [(k, v)]

/-- `WoTDict._compile_link_patterns`: the pattern table of one batch,
mapping each identifier (standing for its compiled link pattern) to the
display name it resolves to; a duplicated identifier keeps the last name. -/
def compileLinkPatterns (jdata : List BookData) : List (List Char × List Char) :=
  jdata.foldl (fun acc jd => setEntry acc jd.id jd.name) []

/-- Python `d1 |= d2` on the pattern table. -/
def dictMerge (d1 d2 : List (List Char × List Char)) : List (List Char × List Char) :=
  d2.foldl (fun acc p => setEntry acc p.1 p.2) d1

/-- `WoTDict._find_backlinks`: the names of the records of the current
batch whose raw text matches some pattern of the table resolving to
`name`. -/
def findBacklinks (pats : List (List Char × List Char)) (name : List Char)
    (jdata : List BookData) : Finset (List Char) :=
  ((jdata.filter
      (fun jd => pats.any (fun p => p.2 == name && containsLink p.1 jd.info))).map
    (fun jd => jd.name)).toFinset

/-- The accumulator state of `WoTDict` (`_entries` and `_link_patterns`). -/
structure WoTDict where
  entries : List (List Char × List DictEntry)
  link_patterns : List (List Char × List Char)

/-- `WoTDict()` -/
def WoTDict.empty : WoTDict := ⟨[], []⟩

/-- The new `DictEntry` built for record `d` during an ingest call. -/
def mkEntry (pats : List (List Char × List Char)) (d : BookData) (bn : Nat)
    (bt : List Char) (jdata : List BookData) : DictEntry :=
  { book_number := bn
    book_title := bt
    chapter := d.chapter
    definition := convertDefiLinks pats d.info
    backlinks := findBacklinks pats d.name jdata }

/-- The descending stable sort `sorted(..., key=book_number, reverse=True)`. -/
def sortEntries (l : List DictEntry) : List DictEntry :=
  List.mergeSort l (fun a b => decide (b.book_number ≤ a.book_number))

/-- The backlink pruning of `WoTDict.ingest`: every entry of the merged
list loses from its backlink set everything appearing in the backlink set
of an entry with a strictly greater book number. -/
def pruneList (ets : List DictEntry) : List DictEntry :=
  ets.map (fun e =>
    { e with
      backlinks :=
        (ets.filter (fun ee => e.book_number < ee.book_number)).foldl
          (fun x ee => x \ ee.backlinks) e.backlinks })

/-- The per-record body of the loop of `WoTDict.ingest`. -/
def ingestStep (pats : List (List Char × List Char)) (bn : Nat) (bt : List Char)
    (jdata : List BookData) (es : List (List Char × List DictEntry)) (d : BookData) :
    List (List Char × List DictEntry) :=
  let ne := mkEntry pats d bn bt jdata
  match lookupA es d.name with
  | some l => setEntry es d.name (pruneList (sortEntries (ne :: l)))
  | none => setEntry es d.name [ne]

/-- `WoTDict.ingest`, with the already-parsed JSON array in place of the
input file. -/
def WoTDict.ingest (st : WoTDict) (jdata : List BookData) (bn : Nat) (bt : List Char) :
    WoTDict :=
  let pats := dictMerge st.link_patterns (compileLinkPatterns jdata)
  { entries := jdata.foldl (ingestStep pats bn bt jdata) st.entries
    link_patterns := pats }

/-- One ingest call (file contents, book number, book title). -/
structure Call where
  jdata : List BookData
  bn : Nat
  bt : List Char

/-- A sequence of ingest calls. -/
def ingestAll (st : WoTDict) (cs : List Call) : WoTDict :=
  cs.foldl (fun s c => s.ingest c.jdata c.bn c.bt) st

/-- The names of the records of a batch. -/
def batchNames (jdata : List BookData) : List (List Char) :=
  jdata.map (fun d => d.name)

/-- `re.match(r"([^(]*[^( ]) *\(([^)]*)\) *(.*)", word)`: group 1 is the
text before the parenthetical (trailing spaces trimmed, must be non-empty
and contain no opening parenthesis), group 2 the text inside the
parentheses (no closing parenthesis), group 3 the rest after the closing
parenthesis with leading spaces consumed. -/
def parseParens (w : List Char) : Option (List Char × List Char × List Char) :=
  match splitAtFirst lpar w with
  | none => none
  | some (pre, rest1) =>
    let g1 := ((pre.reverse.dropWhile (fun c => c = spc)).reverse)
    if g1 = [] then none
    else
      match splitAtFirst rpar rest1 with
      | none => none
      | some (g2, rest2) => some (g1, g2, rest2.dropWhile (fun c => c = spc))

/-- Python `word.split(" ")`. -/
def splitSpaces : List Char → List (List Char)
  | [] => [[]]
  | c :: t =>
    if c = spc then [] :: splitSpaces t
    else
      match splitSpaces t with
      | h :: r => (c :: h) :: r
      | [] => [[c]]

/-- Python `w.strip("()")`. -/
def stripParens (w : List Char) : List Char :=
  let p : Char → Bool := fun c => c = lpar || c = rpar
  ((w.dropWhile p).reverse.dropWhile p).reverse

/-- `re.match(r"[a-z]{1,2}'(.*)", ww)`: one or two lowercase letters, an
apostrophe, and the remainder (group 1); two letters are preferred. -/
def altPart (ww : List Char) : Option (List Char) :=
  let low : Char → Bool := fun c => decide (Char.ofNat 97 ≤ c) && decide (c ≤ Char.ofNat 122)
  match ww with
  | c1 :: c2 :: c3 :: r =>
    if low c1 && low c2 && (c3 = apos) then some r
    else if low c1 && (c2 = apos) then some (c3 :: r)
    else none
  | c1 :: c2 :: r => if low c1 && (c2 = apos) then some r else none
  | _ => none

/-- The inner generator `_get_words` of `WoTDict._get_alt_words`. -/
def innerWords (word : List Char) : List (List Char) :=
  [word]
    ++ (match parseParens word with
        | some (g1, g2, g3) =>
          (if g3 ≠ [] then [g2 ++ spc :: g3] else [g1 ++ spc :: g2]) ++ [g1 ++ spc :: g3]
        | none => [])
    ++ (splitSpaces word).flatMap (fun w =>
        let ww := stripParens w
        if ww = [] then []
        else ww :: (match altPart ww with | some r => [r] | none => []))

/-- `WoTDict._get_alt_words`: every inner word followed by its lowercase
form. -/
def altWords (word : List Char) : List (List Char) :=
  (innerWords word).flatMap (fun w => [w, w.map Char.toLower])

/-! ### Basic facts about the scanning helpers -/

theorem splitAtFirst_eq {ch : Char} :
    ∀ {s a b : List Char}, splitAtFirst ch s = some (a, b) → s = a ++ ch :: b ∧ ch ∉ a := by
  intro s
  induction s with
  | nil => intro a b h; simp [splitAtFirst] at h
  | cons c t ih =>
    intro a b h
    by_cases hc : c = ch
    · simp [splitAtFirst, hc] at h
      obtain ⟨ha, hb⟩ := h
      subst ha; subst hb; subst hc
      exact ⟨rfl, by simp⟩
    · simp [splitAtFirst, hc] at h
      rcases hsp : splitAtFirst ch t with _ | ⟨a', b'⟩
      · rw [hsp] at h; simp at h
      · rw [hsp] at h
        simp at h
        obtain ⟨ha, hb⟩ := h
        obtain ⟨ht, hna⟩ := ih hsp
        subst hb
        refine ⟨?_, ?_⟩
        · rw [← ha]; simp [ht]
        · rw [← ha]
          intro hm
          rcases List.mem_cons.mp hm with h1 | h2
          · exact hc h1.symm
          · exact hna h2

theorem splitAtFirst_of {ch : Char} :
    ∀ {a : List Char} (b : List Char), ch ∉ a → splitAtFirst ch (a ++ ch :: b) = some (a, b) := by
  intro a
  induction a with
  | nil => intro b _; simp [splitAtFirst]
  | cons c t ih =>
    intro b h
    have hc : ¬ c = ch := fun hh => h (by simp [hh])
    have ht : ch ∉ t := fun hh => h (by simp [hh])
    simp only [List.cons_append, splitAtFirst, if_neg hc]
    have ih' : splitAtFirst ch (t.append (ch :: b)) = some (t, b) := ih b ht
    rw [ih']

theorem splitAtFirst_none {ch : Char} :
    ∀ {s : List Char}, splitAtFirst ch s = none → ch ∉ s := by
  intro s
  induction s with
  | nil => intro _; simp
  | cons c t ih =>
    intro h
    by_cases hc : c = ch
    · simp [splitAtFirst, hc] at h
    · simp only [splitAtFirst, if_neg hc] at h
      rcases hsp : splitAtFirst ch t with _ | p
      · intro hm
        rcases List.mem_cons.mp hm with h1 | h2
        · exact hc h1.symm
        · exact ih hsp h2
      · rw [hsp] at h; simp at h

theorem stripPre_iff :
    ∀ {p s r : List Char}, stripPre p s = some r ↔ s = p ++ r := by
  intro p
  induction p with
  | nil =>
    intro s r
    constructor
    · intro h; simp [stripPre] at h; simp [h]
    · intro h; simp at h; simp [stripPre, h]
  | cons c t ih =>
    intro s r
    constructor
    · intro h
      match s with
      | [] => simp [stripPre] at h
      | c' :: s' =>
        by_cases hc : c = c'
        · simp only [stripPre, if_pos hc] at h
          rw [ih] at h
          simp [← hc, h]
        · simp [stripPre, hc] at h
    · intro h
      subst h
      simp only [List.cons_append, stripPre, if_pos rfl]
      exact ih.mpr rfl

/-- The closing part `](#id)` of a link match followed by `rest`. -/
def linkTail (id rest : List Char) : List Char :=
  lpar :: hashc :: (id ++ rpar :: rest)

/-- The target shape of a link match for identifier `id`: a full markdown
link `[label](#id)` with a `]`-free label. -/
def linkShape (id label rest : List Char) : List Char :=
  lbrack :: (label ++ rbrack :: linkTail id rest)

theorem tryLink_some {id s label rest : List Char}
    (h : tryLink id s = some (label, rest)) :
    s = linkShape id label rest ∧ rbrack ∉ label := by
  match s with
  | [] => simp [tryLink] at h
  | c :: t =>
    by_cases hc : c = lbrack
    · simp only [tryLink, if_pos hc] at h
      rcases hsp : splitAtFirst rbrack t with _ | ⟨label0, rest0⟩
      · simp only [hsp] at h
        exact absurd h (by simp)
      · simp only [hsp] at h
        rcases hst : stripPre (lpar :: hashc :: (id ++ [rpar])) rest0 with _ | rest1
        · simp only [hst] at h
          exact absurd h (by simp)
        · simp only [hst, Option.some.injEq, Prod.mk.injEq] at h
          obtain ⟨hl, hr⟩ := h
          subst hl; subst hr
          obtain ⟨ht, hnl⟩ := splitAtFirst_eq hsp
          have hrest0 : rest0 = lpar :: hashc :: (id ++ [rpar]) ++ rest1 := stripPre_iff.mp hst
          subst hc
          refine ⟨?_, hnl⟩
          simp [linkShape, linkTail, ht, hrest0]
    · simp [tryLink, hc] at h

theorem tryLink_of {id label rest : List Char} (hnl : rbrack ∉ label) :
    tryLink id (linkShape id label rest) = some (label, rest) := by
  have h1 : splitAtFirst rbrack (label ++ rbrack :: linkTail id rest)
      = some (label, linkTail id rest) := splitAtFirst_of _ hnl
  have h2 : stripPre (lpar :: hashc :: (id ++ [rpar])) (linkTail id rest)
      = some rest := stripPre_iff.mpr (by simp [linkTail])
  dsimp only [linkShape, tryLink]
  rw [if_pos rfl, h1]
  dsimp only
  rw [h2]

/-- `OccursLink id s`: `s` contains a substring matching the link pattern
of identifier `id`. -/
def OccursLink (id s : List Char) : Prop :=
  ∃ x label y, s = x ++ linkShape id label y ∧ rbrack ∉ label

theorem containsLink_iff {id : List Char} :
    ∀ {s : List Char}, containsLink id s = true ↔ OccursLink id s := by
  intro s
  induction s with
  | nil =>
    constructor
    · intro h; simp [containsLink] at h
    · rintro ⟨x, label, y, hs, _⟩
      exact absurd hs (by simp [linkShape])
  | cons c t ih =>
    constructor
    · intro h
      simp only [containsLink, Bool.or_eq_true] at h
      rcases h with h | h
      · rcases htl : tryLink id (c :: t) with _ | ⟨label, rest⟩
        · rw [htl] at h; simp at h
        · obtain ⟨hs, hnl⟩ := tryLink_some htl
          exact ⟨[], label, rest, by simpa using hs, hnl⟩
      · obtain ⟨x, label, y, hs, hnl⟩ := ih.mp h
        exact ⟨c :: x, label, y, by simp [hs], hnl⟩
    · rintro ⟨x, label, y, hs, hnl⟩
      match x with
      | [] =>
        simp only [List.nil_append] at hs
        have : tryLink id (c :: t) = some (label, y) := by rw [hs]; exact tryLink_of hnl
        simp [containsLink, this]
      | c' :: x' =>
        simp only [List.cons_append, List.cons.injEq] at hs
        obtain ⟨hc, ht⟩ := hs
        have : containsLink id t = true := ih.mpr ⟨x', label, y, ht, hnl⟩
        simp [containsLink, this]

/-! ### Recurrence equations for the fuelled rewriters -/

theorem emphGo_nil : ∀ k, emphGo k [] = [] := by
  intro k
  cases k with
  | zero => rfl
  | succ n => simp [emphGo, splitAtFirst]

theorem emphGo_fuel :
    ∀ (n m : Nat) (s : List Char), s.length ≤ n → s.length ≤ m → emphGo n s = emphGo m s := by
  intro n
  induction n with
  | zero =>
    intro m s hn _
    have : s = [] := List.length_eq_zero.mp (Nat.le_zero.mp hn)
    subst this
    rw [emphGo_nil, emphGo_nil]
  | succ n ih =>
    intro m s hn hm
    match m with
    | 0 =>
      have : s = [] := List.length_eq_zero.mp (Nat.le_zero.mp hm)
      subst this
      rw [emphGo_nil, emphGo_nil]
    | Nat.succ m' =>
      rcases h1 : splitAtFirst und s with _ | ⟨a, b⟩
      · simp only [emphGo, h1]
      · rcases h2 : splitAtFirst und b with _ | ⟨c, d⟩
        · simp only [emphGo, h1, h2]
        · obtain ⟨hs, _⟩ := splitAtFirst_eq h1
          obtain ⟨hb, _⟩ := splitAtFirst_eq h2
          have hslen : s.length = a.length + c.length + d.length + 2 := by
            subst hs; subst hb; simp; omega
          by_cases hc : c = []
          · subst hc
            have hlt : (und :: d).length ≤ n := by simp at hslen ⊢; omega
            have hlt' : (und :: d).length ≤ m' := by simp at hslen ⊢; omega
            simp only [emphGo, h1, h2, eq_self_iff_true, if_true]
            rw [ih m' (und :: d) hlt hlt']
          · have hlt : d.length ≤ n := by simp at hslen ⊢; omega
            have hlt' : d.length ≤ m' := by simp at hslen ⊢; omega
            simp only [emphGo, h1, h2, if_neg hc]
            rw [ih m' d hlt hlt']

theorem emphSub_no1 {s : List Char} (h : splitAtFirst und s = none) : emphSub s = s := by
  cases s with
  | nil => rfl
  | cons c t => simp only [emphSub, List.length_cons, emphGo, h]

theorem emphSub_no2 {s a b : List Char} (h1 : splitAtFirst und s = some (a, b))
    (h2 : splitAtFirst und b = none) : emphSub s = s := by
  cases s with
  | nil => rfl
  | cons c t => simp only [emphSub, List.length_cons, emphGo, h1, h2]

theorem emphSub_adj {s a b d : List Char} (h1 : splitAtFirst und s = some (a, b))
    (h2 : splitAtFirst und b = some ([], d)) :
    emphSub s = a ++ und :: emphSub (und :: d) := by
  obtain ⟨hs, _⟩ := splitAtFirst_eq h1
  obtain ⟨hb, _⟩ := splitAtFirst_eq h2
  simp only [List.nil_append] at hb
  have hlen : s.length = a.length + d.length + 2 := by
    subst hs; subst hb; simp; omega
  show emphGo s.length s = a ++ und :: emphSub (und :: d)
  rw [show s.length = (a.length + d.length + 1) + 1 from by omega]
  generalize hK : a.length + d.length + 1 = K
  simp only [emphGo, h1, h2, eq_self_iff_true, if_true]
  have he : emphGo K (und :: d) = emphGo (und :: d).length (und :: d) :=
    emphGo_fuel K (und :: d).length (und :: d) (by simp; omega) (Nat.le_refl _)
  rw [he]
  rfl

theorem emphSub_conv {s a b c d : List Char} (h1 : splitAtFirst und s = some (a, b))
    (h2 : splitAtFirst und b = some (c, d)) (hc : c ≠ []) :
    emphSub s = a ++ emOpen ++ c ++ emClose ++ emphSub d := by
  obtain ⟨hs, _⟩ := splitAtFirst_eq h1
  obtain ⟨hb, _⟩ := splitAtFirst_eq h2
  have hlen : s.length = a.length + c.length + d.length + 2 := by
    subst hs; subst hb; simp; omega
  show emphGo s.length s = a ++ emOpen ++ c ++ emClose ++ emphSub d
  rw [show s.length = (a.length + c.length + d.length + 1) + 1 from by omega]
  generalize hK : a.length + c.length + d.length + 1 = K
  simp only [emphGo, h1, h2, if_neg hc]
  have he : emphGo K d = emphGo d.length d :=
    emphGo_fuel K d.length d (by omega) (Nat.le_refl _)
  rw [he]
  rfl

theorem linkGo_nil {id nm : List Char} : ∀ k, linkGo id nm k [] = [] := by
  intro k
  cases k with
  | zero => rfl
  | succ n => simp [linkGo]

theorem linkGo_fuel {id nm : List Char} :
    ∀ (n m : Nat) (s : List Char), s.length ≤ n → s.length ≤ m →
      linkGo id nm n s = linkGo id nm m s := by
  intro n
  induction n with
  | zero =>
    intro m s hn _
    have : s = [] := List.length_eq_zero.mp (Nat.le_zero.mp hn)
    subst this
    rw [linkGo_nil, linkGo_nil]
  | succ n ih =>
    intro m s hn hm
    match m with
    | 0 =>
      have : s = [] := List.length_eq_zero.mp (Nat.le_zero.mp hm)
      subst this
      rw [linkGo_nil, linkGo_nil]
    | Nat.succ m' =>
      match s with
      | [] => rw [linkGo_nil, linkGo_nil]
      | c :: t =>
        rcases htl : tryLink id (c :: t) with _ | ⟨label, rest⟩
        · simp only [linkGo, htl]
          have hl1 : t.length ≤ n := by simp at hn; omega
          have hl2 : t.length ≤ m' := by simp at hm; omega
          rw [ih m' t hl1 hl2]
        · obtain ⟨hs, _⟩ := tryLink_some htl
          have hlen : (c :: t).length = rest.length + (label.length + id.length + 5) := by
            rw [hs]; simp [linkShape, linkTail]; omega
          simp only [linkGo, htl]
          have hl1 : rest.length ≤ n := by simp at hn hlen; omega
          have hl2 : rest.length ≤ m' := by simp at hm hlen; omega
          rw [ih m' rest hl1 hl2]

theorem linkSub_nil {id nm : List Char} : linkSub id nm [] = [] := rfl

theorem linkSub_match {id nm label rest : List Char} {c : Char} {t : List Char}
    (h : tryLink id (c :: t) = some (label, rest)) :
    linkSub id nm (c :: t) = aTagL nm label ++ linkSub id nm rest := by
  obtain ⟨hs, _⟩ := tryLink_some h
  have hlen : (c :: t).length = rest.length + (label.length + id.length + 5) := by
    rw [hs]; simp [linkShape, linkTail]; omega
  simp only [linkSub, List.length_cons, linkGo, h]
  have he : linkGo id nm t.length rest = linkGo id nm rest.length rest :=
    linkGo_fuel t.length rest.length rest (by simp at hlen; omega) (Nat.le_refl _)
  rw [he]

theorem linkSub_skip {id nm : List Char} {c : Char} {t : List Char}
    (h : tryLink id (c :: t) = none) :
    linkSub id nm (c :: t) = c :: linkSub id nm t := by
  simp only [linkSub, List.length_cons, linkGo, h]

/-! ### Association-list facts (Python dict semantics) -/


theorem lookupA_map_over {V : Type} {k : List Char} {v : V} :
    ∀ {l : List (List Char × V)}, l.any (fun p => p.1 == k) = true →
      lookupA (l.map (fun p => if p.1 == k then (k, v) else p)) k = some v := by
  intro l
  induction l with
  | nil => intro h; simp at h
  | cons p t ih =>
    intro h
    by_cases hp : (p.1 == k) = true
    · simp only [List.map_cons, if_pos hp, lookupA, List.find?_cons]
      have : (k == k) = true := beq_iff_eq.mpr rfl
      simp [this]
    · have ht : t.any (fun p => p.1 == k) = true := by
        simp only [List.any_cons, Bool.or_eq_true] at h
        rcases h with h | h
        · exact absurd h hp
        · exact h
      have hv := ih ht
      simp only [Bool.not_eq_true] at hp
      simp only [lookupA] at hv
      have hfp : (if (p.1 == k) = true then (k, v) else p) = p := if_neg (by simp [hp])
      rw [List.map_cons]
      simp only [lookupA, List.find?_cons, hfp]
      rw [hp]
      exact hv

theorem lookupA_setEntry_self {V : Type} (l : List (List Char × V)) (k : List Char) (v : V) :
    lookupA (setEntry l k v) k = some v := by
  unfold setEntry
  by_cases h : l.any (fun p => p.1 == k) = true
  · rw [if_pos h]
    exact lookupA_map_over h
  · rw [if_neg h]
    have hnone : l.find? (fun p => p.1 == k) = none := by
      rw [List.find?_eq_none]
      intro p hp hk
      exact h (List.any_eq_true.mpr ⟨p, hp, hk⟩)
    have : (k == k) = true := beq_iff_eq.mpr rfl
    simp [lookupA, List.find?_append, hnone, List.find?_cons, this]

theorem lookupA_setEntry_ne {V : Type} (l : List (List Char × V)) (k k' : List Char) (v : V)
    (hne : k' ≠ k) : lookupA (setEntry l k v) k' = lookupA l k' := by
  unfold setEntry
  by_cases h : l.any (fun p => p.1 == k) = true
  · rw [if_pos h]
    clear h
    induction l with
    | nil => rfl
    | cons p t ih =>
      by_cases hp : (p.1 == k) = true
      · have hkk : (k == k') = false := by
          rw [beq_eq_false_iff_ne]
          exact fun hh => hne hh.symm
        have hpk : (p.1 == k') = false := by
          rw [beq_eq_false_iff_ne]
          have : p.1 = k := beq_iff_eq.mp hp
          rw [this]
          exact fun hh => hne hh.symm
        simp only [List.map_cons, if_pos hp, lookupA, List.find?_cons, hkk, hpk] at ih ⊢
        exact ih
      · simp only [Bool.not_eq_true] at hp
        simp only [List.map_cons, if_neg (by simp [hp] : ¬ (p.1 == k) = true), lookupA,
          List.find?_cons] at ih ⊢
        cases hc : (p.1 == k') with
        | true => simp
        | false => simpa [hc] using ih
  · rw [if_neg h]
    have hk : ((k, v).1 == k') = false := by
      rw [beq_eq_false_iff_ne]
      exact fun hh => hne hh.symm
    simp [lookupA, List.find?_append, List.find?_cons, hk]

theorem mem_setEntry {V : Type} {l : List (List Char × V)} {k : List Char} {v : V}
    {q : List Char × V} (h : q ∈ setEntry l k v) : q = (k, v) ∨ q ∈ l := by
  unfold setEntry at h
  by_cases ha : l.any (fun p => p.1 == k) = true
  · rw [if_pos ha] at h
    obtain ⟨p, hp, hq⟩ := List.mem_map.mp h
    by_cases hpk : (p.1 == k) = true
    · rw [if_pos hpk] at hq; exact Or.inl hq.symm
    · rw [if_neg hpk] at hq; exact Or.inr (hq ▸ hp)
  · rw [if_neg ha] at h
    rcases List.mem_append.mp h with h | h
    · exact Or.inr h
    · simp at h; exact Or.inl (by simp [h])

/-- Keys of an association list are distinct. -/
def NodupKeys {V : Type} (l : List (List Char × V)) : Prop :=
  (l.map (fun p => p.1)).Nodup

theorem nodupKeys_setEntry {V : Type} {l : List (List Char × V)} {k : List Char} {v : V}
    (h : NodupKeys l) : NodupKeys (setEntry l k v) := by
  unfold setEntry
  by_cases ha : l.any (fun p => p.1 == k) = true
  · rw [if_pos ha]
    have : (l.map (fun p => if p.1 == k then (k, v) else p)).map (fun p => p.1)
        = l.map (fun p => p.1) := by
      rw [List.map_map]
      apply List.map_congr_left
      intro p _
      by_cases hp : p.1 = k
      · simp [hp]
      · simp [hp]
    unfold NodupKeys
    rw [this]
    exact h
  · rw [if_neg ha]
    unfold NodupKeys
    rw [List.map_append]
    simp only [List.map_cons, List.map_nil]
    apply List.Nodup.append h (by simp)
    intro x hx hy
    simp only [List.mem_singleton] at hy
    subst hy
    obtain ⟨p, hp, hpk⟩ := List.mem_map.mp hx
    apply ha
    rw [List.any_eq_true]
    exact ⟨p, hp, beq_iff_eq.mpr hpk⟩

theorem nodupKeys_compile (jdata : List BookData) : NodupKeys (compileLinkPatterns jdata) := by
  unfold compileLinkPatterns
  generalize hinit : ([] : List (List Char × List Char)) = init
  have hbase : NodupKeys init := by rw [← hinit]; simp [NodupKeys]
  clear hinit
  induction jdata generalizing init with
  | nil => exact hbase
  | cons jd t ih => exact ih (setEntry init jd.id jd.name) (nodupKeys_setEntry hbase)

theorem find?_reverse_of_nodupKeys {V : Type} {k : List Char} :
    ∀ {l : List (List Char × V)}, NodupKeys l →
      l.reverse.find? (fun p => p.1 == k) = l.find? (fun p => p.1 == k) := by
  intro l
  induction l with
  | nil => intro _; rfl
  | cons p t ih =>
    intro h
    have ht : NodupKeys t := by
      unfold NodupKeys at h ⊢
      simp only [List.map_cons] at h
      exact h.of_cons
    have hrev : (p :: t).reverse = t.reverse ++ [p] := by simp
    rw [hrev, List.find?_append, ih ht]
    by_cases hpk : (p.1 == k) = true
    · have hk : p.1 = k := beq_iff_eq.mp hpk
      have hnone : t.find? (fun q => q.1 == k) = none := by
        rw [List.find?_eq_none]
        intro q hq hqk
        have hq1 : q.1 = k := beq_iff_eq.mp hqk
        unfold NodupKeys at h
        simp only [List.map_cons, List.nodup_cons] at h
        exact h.1 (by rw [hk, ← hq1]; exact List.mem_map.mpr ⟨q, hq, rfl⟩)
      simp [hnone, List.find?_cons, hpk]
    · simp only [Bool.not_eq_true] at hpk
      cases hf : t.find? (fun q => q.1 == k) with
      | none => simp [hf, List.find?_cons, hpk]
      | some y => simp [hf, Option.or, List.find?_cons, hpk]

theorem lookupA_compile_aux :
    ∀ (jdata : List BookData) (init : List (List Char × List Char)) (k : List Char),
      lookupA (jdata.foldl (fun acc jd => setEntry acc jd.id jd.name) init) k
        = match jdata.reverse.find? (fun jd => jd.id == k) with
          | some jd => some jd.name
          | none => lookupA init k := by
  intro jdata
  induction jdata with
  | nil => intro init k; rfl
  | cons x t ih =>
    intro init k
    rw [List.foldl_cons, ih]
    have hrev : (x :: t).reverse = t.reverse ++ [x] := by simp
    rw [hrev, List.find?_append]
    rcases hft : t.reverse.find? (fun y => y.id == k) with _ | y
    · rw [hft]
      simp only [Option.none_or]
      by_cases hxk : (x.id == k) = true
      · have hkx : k = x.id := (beq_iff_eq.mp hxk).symm
        subst hkx
        simp [List.find?_cons, hxk, lookupA_setEntry_self]
      · have hne : k ≠ x.id := fun hh => hxk (beq_iff_eq.mpr hh.symm)
        simp only [Bool.not_eq_true] at hxk
        simp [List.find?_cons, hxk, lookupA_setEntry_ne init x.id k x.name hne]
    · rw [hft]
      simp [Option.or]

theorem lookupA_dictMerge :
    ∀ (d2 d1 : List (List Char × List Char)) (k : List Char),
      lookupA (dictMerge d1 d2) k
        = match d2.reverse.find? (fun p => p.1 == k) with
          | some p => some p.2
          | none => lookupA d1 k := by
  intro d2
  induction d2 with
  | nil => intro d1 k; rfl
  | cons x t ih =>
    intro d1 k
    unfold dictMerge at ih ⊢
    rw [List.foldl_cons, ih]
    have hrev : (x :: t).reverse = t.reverse ++ [x] := by simp
    rw [hrev, List.find?_append]
    rcases hft : t.reverse.find? (fun y => y.1 == k) with _ | y
    · rw [hft]
      simp only [Option.none_or]
      by_cases hxk : (x.1 == k) = true
      · have hkx : k = x.1 := (beq_iff_eq.mp hxk).symm
        subst hkx
        simp [List.find?_cons, hxk, lookupA_setEntry_self]
      · have hne : k ≠ x.1 := fun hh => hxk (beq_iff_eq.mpr hh.symm)
        simp only [Bool.not_eq_true] at hxk
        simp [List.find?_cons, hxk, lookupA_setEntry_ne d1 x.1 k x.2 hne]
    · rw [hft]
      simp [Option.or]

/-- After an ingest call the pattern table answers with the last record of
the ingested batch carrying the identifier, falling back to the previous
table: last-write-wins. -/
theorem ingest_patterns_lookup (st : WoTDict) (jdata : List BookData) (bn : Nat)
    (bt X : List Char) :
    lookupA (st.ingest jdata bn bt).link_patterns X
      = match jdata.reverse.find? (fun jd => jd.id == X) with
        | some jd => some jd.name
        | none => lookupA st.link_patterns X := by
  have hA : (st.ingest jdata bn bt).link_patterns
      = dictMerge st.link_patterns (compileLinkPatterns jdata) := rfl
  rw [hA, lookupA_dictMerge]
  rw [find?_reverse_of_nodupKeys (nodupKeys_compile jdata)]
  have hC := lookupA_compile_aux jdata [] X
  unfold compileLinkPatterns
  rcases hf : jdata.reverse.find? (fun jd => jd.id == X) with _ | jd
  · rw [hf] at hC
    have hC2 : lookupA (List.foldl (fun acc jd => setEntry acc jd.id jd.name) [] jdata) X
        = none := hC
    unfold lookupA at hC2
    have hg : (List.foldl (fun acc jd => setEntry acc jd.id jd.name) [] jdata).find?
        (fun p => p.1 == X) = none := by
      rcases hg2 : (List.foldl (fun acc jd => setEntry acc jd.id jd.name) [] jdata).find?
          (fun p => p.1 == X) with _ | p
      · exact hg2
      · rw [hg2] at hC2; simp at hC2
    rw [hg, hf]
  · rw [hf] at hC
    have hC2 : lookupA (List.foldl (fun acc jd => setEntry acc jd.id jd.name) [] jdata) X
        = some jd.name := hC
    unfold lookupA at hC2
    rcases hg2 : (List.foldl (fun acc jd => setEntry acc jd.id jd.name) [] jdata).find?
        (fun p => p.1 == X) with _ | p
    · rw [hg2] at hC2; simp at hC2
    · rw [hg2] at hC2
      simp only [Option.map_some'] at hC2
      rw [hg2, hf]
      exact hC2

/-! ### Frame property of ingest -/

theorem ingestStep_frame {pats : List (List Char × List Char)} {bn : Nat}
    {bt : List Char} {jdata0 : List BookData} {es : List (List Char × List DictEntry)}
    {d : BookData} {n : List Char} (h : d.name ≠ n) :
    lookupA (ingestStep pats bn bt jdata0 es d) n = lookupA es n := by
  have hne : n ≠ d.name := fun hh => h hh.symm
  unfold ingestStep
  cases lookupA es d.name with
  | none => exact lookupA_setEntry_ne es d.name n [mkEntry pats d bn bt jdata0] hne
  | some l => exact lookupA_setEntry_ne es d.name n _ hne

theorem foldl_ingestStep_frame {pats : List (List Char × List Char)} {bn : Nat}
    {bt : List Char} {jdata0 : List BookData} :
    ∀ (jdata : List BookData) (es : List (List Char × List DictEntry)) (n : List Char),
      (∀ d ∈ jdata, d.name ≠ n) →
      lookupA (jdata.foldl (ingestStep pats bn bt jdata0) es) n = lookupA es n := by
  intro jdata
  induction jdata with
  | nil => intro es n _; rfl
  | cons d t ih =>
    intro es n h
    rw [List.foldl_cons, ih _ n (fun d' hd' => h d' (List.mem_cons_of_mem d hd'))]
    exact ingestStep_frame (h d (List.mem_cons_self d t))

/-- C10: an ingest call touches only the entry lists of the names that
occur in the ingested batch; every other name's stored list is returned
unchanged (same length, order, fields and backlink sets). -/
theorem claim10_ingest_frame (st : WoTDict) (J : List BookData) (bn : Nat)
    (bt n : List Char) (h : ∀ d ∈ J, d.name ≠ n) :
    lookupA (st.ingest J bn bt).entries n = lookupA st.entries n := by
  have he : (st.ingest J bn bt).entries
      = J.foldl (ingestStep (dictMerge st.link_patterns (compileLinkPatterns J)) bn bt J)
          st.entries := rfl
  rw [he]
  exact foldl_ingestStep_frame J st.entries n h

theorem claim10_ingest_frame_witness :
    lookupA (WoTDict.empty.ingest
        [⟨("rand").data, ("Rand").data, ("ch1").data, ("x").data⟩] 1 ("EotW").data).entries
      ("Mat").data = lookupA WoTDict.empty.entries ("Mat").data :=
  claim10_ingest_frame WoTDict.empty _ 1 (("EotW").data) (("Mat").data) (by decide)

/-- C7: when two ingested batches both carry a record for the identifier
`X`, the pattern table afterwards maps `X` to the display name associated
with it by the most recently ingested batch (last-write-wins on merge). -/
theorem claim7_pattern_last_write_wins (st : WoTDict) (b1 b2 : List BookData)
    (bn1 bn2 : Nat) (bt1 bt2 X n1 n2 : List Char)
    (h1 : ∃ r ∈ b1, r.id = X ∧ r.name = n1)
    (h2 : ∃ r ∈ b2, r.id = X ∧ r.name = n2)
    (hall : ∀ r ∈ b2, r.id = X → r.name = n2)
    (hne : n1 ≠ n2) :
    lookupA ((st.ingest b1 bn1 bt1).ingest b2 bn2 bt2).link_patterns X = some n2 := by
  rw [ingest_patterns_lookup]
  obtain ⟨r, hr, hrid, hrn⟩ := h2
  have hsome : (b2.reverse.find? (fun jd => jd.id == X)).isSome := by
    rw [List.find?_isSome]
    exact ⟨r, List.mem_reverse.mpr hr, beq_iff_eq.mpr hrid⟩
  rcases hy : b2.reverse.find? (fun jd => jd.id == X) with _ | y
  · rw [hy] at hsome; simp at hsome
  · rw [hy]
    have hymem : y ∈ b2 := List.mem_reverse.mp (List.mem_of_find?_eq_some hy)
    have hid : y.id = X := by
      have hyp := List.find?_some hy
      simpa using hyp
    have hyn : y.name = n2 := hall y hymem hid
    simp [hyn]

theorem claim7_pattern_last_write_wins_witness :
    lookupA ((WoTDict.empty.ingest
          [⟨("tam").data, ("Tam").data, ("c").data, ("").data⟩] 1 ("B1").data).ingest
          [⟨("tam").data, ("Tam al").data, ("c").data, ("").data⟩] 2 ("B2").data).link_patterns
        ("tam").data
      = some (("Tam al").data) :=
  claim7_pattern_last_write_wins WoTDict.empty _ _ 1 2 (("B1").data) (("B2").data)
    (("tam").data) (("Tam").data) (("Tam al").data)
    (by decide) (by decide) (by decide) (by decide)

/-! ### Alternate-word generation -/

/-- C6: the alternate-word generator applied to `"Robert (Bob) Jordan"`
yields `Robert (Bob) Jordan`, `Bob Jordan` and `Robert Jordan`, the
lowercase form of each, and never the empty string. -/
theorem claim6_alt_words_example :
    (("Robert (Bob) Jordan").data ∈ altWords (("Robert (Bob) Jordan").data)
        ∧ ("Bob Jordan").data ∈ altWords (("Robert (Bob) Jordan").data)
        ∧ ("Robert Jordan").data ∈ altWords (("Robert (Bob) Jordan").data))
      ∧ (("robert (bob) jordan").data ∈ altWords (("Robert (Bob) Jordan").data)
        ∧ ("bob jordan").data ∈ altWords (("Robert (Bob) Jordan").data)
        ∧ ("robert jordan").data ∈ altWords (("Robert (Bob) Jordan").data))
      ∧ [] ∉ altWords (("Robert (Bob) Jordan").data) := by
  decide

theorem mem_altWords_of_mem_innerWords {x w : List Char} (h : x ∈ innerWords w) :
    x ∈ altWords w ∧ x.map Char.toLower ∈ altWords w := by
  unfold altWords
  constructor
  · rw [List.mem_flatMap]
    exact ⟨x, h, by simp⟩
  · rw [List.mem_flatMap]
    exact ⟨x, h, by simp⟩

theorem parseParens_closed (A0 B : List Char) (ca : Char)
    (hA0 : lpar ∉ A0) (hca1 : ca ≠ lpar) (hca2 : ca ≠ spc) (hB : rpar ∉ B) :
    parseParens (A0 ++ [ca] ++ spc :: lpar :: (B ++ [rpar]))
      = some (A0 ++ [ca], B, []) := by
  have hw : A0 ++ [ca] ++ spc :: lpar :: (B ++ [rpar])
      = (A0 ++ [ca] ++ [spc]) ++ lpar :: (B ++ [rpar]) := by simp
  have hnl : lpar ∉ A0 ++ [ca] ++ [spc] := by
    intro hm
    rcases List.mem_append.mp hm with hm | hm
    · rcases List.mem_append.mp hm with hm | hm
      · exact hA0 hm
      · simp at hm; exact hca1 hm.symm
    · simp at hm
      exact absurd hm.symm (by decide)
  have h1 : splitAtFirst lpar (A0 ++ [ca] ++ spc :: lpar :: (B ++ [rpar]))
      = some (A0 ++ [ca] ++ [spc], B ++ [rpar]) := by
    rw [hw]
    exact splitAtFirst_of _ hnl
  have h2 : splitAtFirst rpar (B ++ [rpar]) = some (B, []) := by
    have : B ++ [rpar] = B ++ rpar :: [] := rfl
    rw [this]
    exact splitAtFirst_of _ hB
  have hg1 : ((A0 ++ [ca] ++ [spc]).reverse.dropWhile (fun c => c = spc)).reverse
      = A0 ++ [ca] := by
    have hrev : (A0 ++ [ca] ++ [spc]).reverse = spc :: ca :: A0.reverse := by simp
    rw [hrev]
    have hstep : (spc :: ca :: A0.reverse).dropWhile (fun c => c = spc)
        = ca :: A0.reverse := by
      rw [List.dropWhile_cons, if_pos (by decide), List.dropWhile_cons,
        if_neg (by simpa using hca2)]
    rw [hstep]
    simp
  unfold parseParens
  rw [h1]
  simp only [hg1]
  rw [if_neg (by simp : ¬ (A0 ++ [ca] = []))]
  rw [h2]
  simp [List.dropWhile_nil]

/-- C9: for a name of the shape `A (B)` with nothing after the closing
parenthesis, the generator yields (besides `A B`) the string `A ` --
the pre-parenthesis part followed by a single trailing space -- together
with its lowercase form; this alternate is non-empty and ends in a space. -/
theorem claim9_trailing_space_alternate (A0 B : List Char) (ca : Char)
    (hA0 : lpar ∉ A0) (hca1 : ca ≠ lpar) (hca2 : ca ≠ spc) (hB : rpar ∉ B) :
    (A0 ++ [ca] ++ [spc]) ∈ altWords (A0 ++ [ca] ++ spc :: lpar :: (B ++ [rpar]))
      ∧ (A0 ++ [ca] ++ [spc]).map Char.toLower
          ∈ altWords (A0 ++ [ca] ++ spc :: lpar :: (B ++ [rpar]))
      ∧ A0 ++ [ca] ++ [spc] ≠ []
      ∧ (A0 ++ [ca] ++ spc :: B) ∈ altWords (A0 ++ [ca] ++ spc :: lpar :: (B ++ [rpar])) := by
  have hp := parseParens_closed A0 B ca hA0 hca1 hca2 hB
  have hmem1 : (A0 ++ [ca] ++ [spc]) ∈ innerWords (A0 ++ [ca] ++ spc :: lpar :: (B ++ [rpar])) := by
    unfold innerWords
    rw [hp]
    simp
  have hmem2 : (A0 ++ [ca] ++ spc :: B)
      ∈ innerWords (A0 ++ [ca] ++ spc :: lpar :: (B ++ [rpar])) := by
    unfold innerWords
    rw [hp]
    simp
  obtain ⟨ha, hal⟩ := mem_altWords_of_mem_innerWords hmem1
  obtain ⟨hb, _⟩ := mem_altWords_of_mem_innerWords hmem2
  exact ⟨ha, hal, by simp, hb⟩

theorem claim9_trailing_space_alternate_witness :
    (("Robert ").data ∈ altWords (("Robert (of Jordan)").data)
      ∧ ("Robert ").data.map Char.toLower ∈ altWords (("Robert (of Jordan)").data)
      ∧ ("Robert ").data ≠ []
      ∧ ("Robert of Jordan").data ∈ altWords (("Robert (of Jordan)").data)) := by
  have h := claim9_trailing_space_alternate (("Rober").data) (("of Jordan").data) 't'
    (by decide) (by decide) (by decide) (by decide)
  simpa using h

/-! ### The backlink pruning of the multi-book merge -/

theorem foldl_sdiff_subset (l : List DictEntry) (init : Finset (List Char)) :
    l.foldl (fun x ee => x \ ee.backlinks) init ⊆ init := by
  induction l generalizing init with
  | nil => exact fun x hx => hx
  | cons e t ih =>
    intro x hx
    rw [List.foldl_cons] at hx
    exact Finset.mem_sdiff.mp (ih (init \ e.backlinks) hx) |>.1

theorem foldl_sdiff_disjoint :
    ∀ (l : List DictEntry) (init : Finset (List Char)) (y : DictEntry), y ∈ l →
      Disjoint (l.foldl (fun x ee => x \ ee.backlinks) init) y.backlinks := by
  intro l
  induction l with
  | nil => intro init y hy; cases hy
  | cons e t ih =>
    intro init y hy
    rcases List.mem_cons.mp hy with h | h
    · subst h
      rw [List.foldl_cons, Finset.disjoint_left]
      intro x hx
      exact (Finset.mem_sdiff.mp (foldl_sdiff_subset t _ hx)).2
    · rw [List.foldl_cons]
      exact ih _ y h

theorem foldl_sdiff_mem :
    ∀ (l : List DictEntry) (init : Finset (List Char)) (x : List Char), x ∈ init →
      (∀ ee ∈ l, x ∉ ee.backlinks) →
      x ∈ l.foldl (fun a ee => a \ ee.backlinks) init := by
  intro l
  induction l with
  | nil => intro init x hx _; exact hx
  | cons e t ih =>
    intro init x hx h
    rw [List.foldl_cons]
    exact ih _ x (Finset.mem_sdiff.mpr ⟨hx, h e (List.mem_cons_self e t)⟩)
      (fun ee hee => h ee (List.mem_cons_of_mem e hee))

theorem pruneList_map_bn (ets : List DictEntry) :
    (pruneList ets).map (fun e => e.book_number) = ets.map (fun e => e.book_number) := by
  unfold pruneList
  rw [List.map_map]
  rfl

theorem prune_pairwiseDisjoint (ets : List DictEntry)
    (h : (ets.map (fun e => e.book_number)).Nodup) :
    (pruneList ets).Pairwise (fun a b => Disjoint a.backlinks b.backlinks) := by
  unfold pruneList
  rw [List.pairwise_map]
  have h' : (ets.map (fun e => e.book_number)).Pairwise (fun a b => a ≠ b) := h
  rw [List.pairwise_map] at h'
  apply h'.imp_of_mem
  intro a b ha hb hne
  rcases Nat.lt_or_ge a.book_number b.book_number with hlt | hge
  · have hbf : b ∈ ets.filter (fun ee => a.book_number < ee.book_number) :=
      List.mem_filter.mpr ⟨hb, by simp [hlt]⟩
    have hd := foldl_sdiff_disjoint _ a.backlinks _ hbf
    exact hd.mono_right (foldl_sdiff_subset _ _)
  · have hlt : b.book_number < a.book_number :=
      Nat.lt_of_le_of_ne hge (fun hh => hne hh.symm)
    have haf : a ∈ ets.filter (fun ee => b.book_number < ee.book_number) :=
      List.mem_filter.mpr ⟨ha, by simp [hlt]⟩
    have hd := foldl_sdiff_disjoint _ b.backlinks _ haf
    exact (hd.mono_right (foldl_sdiff_subset _ _)).symm

/-- The union of the backlink sets of a list of entries. -/
def unionBL (l : List DictEntry) : Finset (List Char) :=
  l.foldr (fun e acc => e.backlinks ∪ acc) ∅

theorem mem_unionBL {x : List Char} :
    ∀ {l : List DictEntry}, x ∈ unionBL l ↔ ∃ e ∈ l, x ∈ e.backlinks := by
  intro l
  induction l with
  | nil => simp [unionBL]
  | cons e t ih =>
    unfold unionBL at ih ⊢
    rw [List.foldr_cons, Finset.mem_union]
    constructor
    · rintro (h | h)
      · exact ⟨e, List.mem_cons_self e t, h⟩
      · obtain ⟨e', he', hx⟩ := ih.mp h
        exact ⟨e', List.mem_cons_of_mem e he', hx⟩
    · rintro ⟨e', he', hx⟩
      rcases List.mem_cons.mp he' with h | h
      · subst h; exact Or.inl hx
      · exact Or.inr (ih.mpr ⟨e', h, hx⟩)

theorem unionBL_perm {l l' : List DictEntry} (h : List.Perm l l') :
    unionBL l = unionBL l' := by
  ext x
  rw [mem_unionBL, mem_unionBL]
  constructor
  · rintro ⟨e, he, hx⟩; exact ⟨e, h.mem_iff.mp he, hx⟩
  · rintro ⟨e, he, hx⟩; exact ⟨e, h.mem_iff.mpr he, hx⟩

theorem exists_max_bn :
    ∀ (l : List DictEntry), l ≠ [] → ∃ m ∈ l, ∀ e ∈ l, e.book_number ≤ m.book_number := by
  intro l
  induction l with
  | nil => intro h; exact absurd rfl h
  | cons e t ih =>
    intro _
    by_cases ht : t = []
    · subst ht
      exact ⟨e, List.mem_cons_self e [], by
        intro e' he'
        rcases List.mem_cons.mp he' with h | h
        · subst h; exact Nat.le_refl _
        · cases h⟩
    · obtain ⟨m, hm, hmax⟩ := ih ht
      rcases Nat.le_total e.book_number m.book_number with h | h
      · refine ⟨m, List.mem_cons_of_mem e hm, ?_⟩
        intro e' he'
        rcases List.mem_cons.mp he' with h' | h'
        · subst h'; exact h
        · exact hmax e' h'
      · refine ⟨e, List.mem_cons_self e t, ?_⟩
        intro e' he'
        rcases List.mem_cons.mp he' with h' | h'
        · subst h'; exact Nat.le_refl _
        · exact Nat.le_trans (hmax e' h') h

/-- Pruning loses nothing: the union of the pruned backlink sets equals the
union of the original ones (a dropped element always survives at an entry
of maximal book number containing it). -/
theorem prune_unionBL (ets : List DictEntry) : unionBL (pruneList ets) = unionBL ets := by
  ext x
  rw [mem_unionBL, mem_unionBL]
  constructor
  · rintro ⟨e', he', hx⟩
    obtain ⟨e, he, hup⟩ := List.mem_map.mp he'
    refine ⟨e, he, ?_⟩
    rw [← hup] at hx
    exact foldl_sdiff_subset _ _ hx
  · rintro ⟨e, he, hx⟩
    have hne : ets.filter (fun ee => decide (x ∈ ee.backlinks)) ≠ [] := by
      intro hemp
      have : e ∈ ets.filter (fun ee => decide (x ∈ ee.backlinks)) :=
        List.mem_filter.mpr ⟨he, by simp [hx]⟩
      rw [hemp] at this
      cases this
    obtain ⟨m, hm, hmax⟩ := exists_max_bn _ hne
    obtain ⟨hmets, hmx⟩ := List.mem_filter.mp hm
    have hxm : x ∈ m.backlinks := by simpa using hmx
    refine ⟨_, List.mem_map.mpr ⟨m, hmets, rfl⟩, ?_⟩
    apply foldl_sdiff_mem _ _ _ hxm
    intro ee hee hxe
    obtain ⟨heets, hlt⟩ := List.mem_filter.mp hee
    have hltn : m.book_number < ee.book_number := by simpa using hlt
    have : ee.book_number ≤ m.book_number :=
      hmax ee (List.mem_filter.mpr ⟨heets, by simp [hxe]⟩)
    omega

theorem sortEntries_perm (l : List DictEntry) : List.Perm (sortEntries l) l :=
  List.mergeSort_perm l _

/-! ### What an ingest call stores under an updated name -/

theorem lookupA_mem {V : Type} {es : List (List Char × V)} {n : List Char} {l : V}
    (h : lookupA es n = some l) : ∃ p ∈ es, p.1 = n ∧ p.2 = l := by
  unfold lookupA at h
  rcases hf : es.find? (fun p => p.1 == n) with _ | p
  · rw [hf] at h; simp at h
  · rw [hf] at h
    simp only [Option.map_some'] at h
    refine ⟨p, List.mem_of_find?_eq_some hf, ?_, by simpa using h⟩
    have := List.find?_some hf
    simpa using this

theorem foldl_ingestStep_lookup {pats : List (List Char × List Char)} {bn : Nat}
    {bt : List Char} {jdata0 : List BookData} :
    ∀ (jdata : List BookData) (es : List (List Char × List DictEntry)) (n : List Char),
      (jdata.map (fun d => d.name)).Nodup →
      ∀ d ∈ jdata, d.name = n →
      ∃ lnew, lookupA (jdata.foldl (ingestStep pats bn bt jdata0) es) n = some lnew
        ∧ ((∃ lold, lookupA es n = some lold
              ∧ lnew = pruneList (sortEntries (mkEntry pats d bn bt jdata0 :: lold)))
           ∨ (lookupA es n = none ∧ lnew = [mkEntry pats d bn bt jdata0])) := by
  intro jdata
  induction jdata with
  | nil => intro es n _ d hd; cases hd
  | cons d0 rest ih =>
    intro es n hnodup d hd hdn
    have hnodup' : (rest.map (fun d => d.name)).Nodup := by
      simp only [List.map_cons, List.nodup_cons] at hnodup
      exact hnodup.2
    have hd0nin : d0.name ∉ rest.map (fun d => d.name) := by
      simp only [List.map_cons, List.nodup_cons] at hnodup
      exact hnodup.1
    rcases List.mem_cons.mp hd with rfl | hdr
    · subst hdn
      have hfr : ∀ d' ∈ rest, d'.name ≠ d.name := by
        intro d' hd' heq
        exact hd0nin (heq ▸ List.mem_map.mpr ⟨d', hd', rfl⟩)
      rw [List.foldl_cons, foldl_ingestStep_frame rest _ d.name hfr]
      unfold ingestStep
      rcases hlo : lookupA es d.name with _ | lold
      · exact ⟨[mkEntry pats d bn bt jdata0], lookupA_setEntry_self es d.name _,
          Or.inr ⟨rfl, rfl⟩⟩
      · exact ⟨pruneList (sortEntries (mkEntry pats d bn bt jdata0 :: lold)),
          lookupA_setEntry_self es d.name _, Or.inl ⟨lold, rfl, rfl⟩⟩
    · by_cases hd0 : d0.name = n
      · exfalso
        apply hd0nin
        rw [hd0, ← hdn]
        exact List.mem_map.mpr ⟨d, hdr, rfl⟩
      · rw [List.foldl_cons]
        obtain ⟨lnew, hl, hcase⟩ :=
          ih (ingestStep pats bn bt jdata0 es d0) n hnodup' d hdr hdn
        refine ⟨lnew, hl, ?_⟩
        rwa [ingestStep_frame hd0] at hcase

/-! ### C1: pairwise-disjoint backlink sets after every ingest -/

/-- The invariant carried per stored entry list: distinct book numbers,
book numbers among the already ingested ones, pairwise disjoint backlink
sets. -/
def goodList (used : List Nat) (l : List DictEntry) : Prop :=
  (l.map (fun e => e.book_number)).Nodup
    ∧ (∀ e ∈ l, e.book_number ∈ used)
    ∧ l.Pairwise (fun a b => Disjoint a.backlinks b.backlinks)

theorem goodList_mono {used used' : List Nat} {l : List DictEntry}
    (hsub : ∀ x ∈ used, x ∈ used') (h : goodList used l) : goodList used' l :=
  ⟨h.1, fun e he => hsub _ (h.2.1 e he), h.2.2⟩

theorem goodList_new (used : List Nat) (bn : Nat) (e : DictEntry)
    (hbn : e.book_number = bn) : goodList (bn :: used) [e] := by
  refine ⟨by simp, ?_, by simp⟩
  intro e' he'
  rcases List.mem_cons.mp he' with h | h
  · subst h; simp [hbn]
  · cases h

theorem goodList_merge {used : List Nat} {bn : Nat} {lold : List DictEntry}
    (ne : DictEntry) (hne : ne.book_number = bn) (hbn : bn ∉ used)
    (hold : ∀ e ∈ lold, e.book_number ∈ used)
    (hnodup : (lold.map (fun e => e.book_number)).Nodup) :
    goodList (bn :: used) (pruneList (sortEntries (ne :: lold))) := by
  have hperm : List.Perm (sortEntries (ne :: lold)) (ne :: lold) :=
    sortEntries_perm (ne :: lold)
  have hpermbn : List.Perm ((sortEntries (ne :: lold)).map (fun e => e.book_number))
      ((ne :: lold).map (fun e => e.book_number)) := hperm.map _
  have hnodups : ((sortEntries (ne :: lold)).map (fun e => e.book_number)).Nodup := by
    apply hpermbn.nodup_iff.mpr
    simp only [List.map_cons, List.nodup_cons]
    refine ⟨?_, hnodup⟩
    rw [hne]
    intro hmem
    obtain ⟨e, he, heb⟩ := List.mem_map.mp hmem
    exact hbn (heb ▸ hold e he)
  refine ⟨?_, ?_, prune_pairwiseDisjoint _ hnodups⟩
  · rw [pruneList_map_bn]
    exact hnodups
  · intro e' he'
    obtain ⟨e, he, hup⟩ := List.mem_map.mp he'
    have hbe : e'.book_number = e.book_number := by rw [← hup]
    rw [hbe]
    have hmem : e ∈ ne :: lold := hperm.mem_iff.mp he
    rcases List.mem_cons.mp hmem with h | h
    · subst h; rw [hne]; exact List.mem_cons_self bn used
    · exact List.mem_cons_of_mem bn (hold e h)

theorem ingest_inv {st : WoTDict} {used : List Nat} {bn : Nat} {bt : List Char}
    {jdata : List BookData} (hbn : bn ∉ used)
    (hnames : (jdata.map (fun d => d.name)).Nodup)
    (hinv : ∀ p ∈ st.entries, goodList used p.2) :
    ∀ p ∈ (st.ingest jdata bn bt).entries, goodList (bn :: used) p.2 := by
  have he : (st.ingest jdata bn bt).entries
      = jdata.foldl
          (ingestStep (dictMerge st.link_patterns (compileLinkPatterns jdata)) bn bt jdata)
          st.entries := rfl
  rw [he]
  -- strengthen to a statement suitable for the fold
  suffices hgen : ∀ (jd : List BookData) (es : List (List Char × List DictEntry)),
      (jd.map (fun d => d.name)).Nodup →
      (∀ p ∈ es, goodList (bn :: used) p.2) →
      (∀ d ∈ jd, ∀ p ∈ es, p.1 = d.name → ∀ e ∈ p.2, e.book_number ∈ used) →
      ∀ p ∈ jd.foldl
          (ingestStep (dictMerge st.link_patterns (compileLinkPatterns jdata)) bn bt jdata)
          es, goodList (bn :: used) p.2 by
    apply hgen jdata st.entries hnames
    · intro p hp
      exact goodList_mono (fun x hx => List.mem_cons_of_mem bn hx) (hinv p hp)
    · intro d _ p hp _ e hep
      exact (hinv p hp).2.1 e hep
  intro jd
  induction jd with
  | nil =>
    intro es _ hes _
    exact hes
  | cons d0 rest ih =>
    intro es hnn hes hlow
    simp only [List.map_cons, List.nodup_cons] at hnn
    rw [List.foldl_cons]
    apply ih _ hnn.2
    · -- the updated accumulator still satisfies the invariant
      intro p hp
      rcases hlo : lookupA es d0.name with _ | lold
      · simp only [ingestStep, hlo] at hp
        rcases mem_setEntry hp with hnew | hold
        · rw [hnew]
          exact goodList_new used bn _ rfl
        · exact hes p hold
      · simp only [ingestStep, hlo] at hp
        rcases mem_setEntry hp with hnew | hold
        · rw [hnew]
          obtain ⟨q, hq, hq1, hq2⟩ := lookupA_mem hlo
          have hlownums : ∀ e ∈ lold, e.book_number ∈ used := by
            intro e he
            exact hlow d0 (List.mem_cons_self d0 rest) q hq hq1 e (hq2 ▸ he)
          have hnod : (lold.map (fun e => e.book_number)).Nodup := by
            have := (hes q hq).1
            rw [hq2] at this
            exact this
          exact goodList_merge _ rfl hbn hlownums hnod
        · exact hes p hold
    · -- names still to process keep lists with previously used numbers
      intro d hd p hp hpn e hep
      rcases hlo : lookupA es d0.name with _ | lold
      all_goals simp only [ingestStep, hlo] at hp
      all_goals rcases mem_setEntry hp with hnew | hold
      · exfalso
        apply hnn.1
        rw [show d0.name = d.name from by rw [← hpn, hnew]]
        exact List.mem_map.mpr ⟨d, hd, rfl⟩
      · exact hlow d (List.mem_cons_of_mem d0 hd) p hold hpn e hep
      · exfalso
        apply hnn.1
        rw [show d0.name = d.name from by rw [← hpn, hnew]]
        exact List.mem_map.mpr ⟨d, hd, rfl⟩
      · exact hlow d (List.mem_cons_of_mem d0 hd) p hold hpn e hep

theorem ingestAll_inv :
    ∀ (cs : List Call) (st : WoTDict) (used : List Nat),
      (∀ p ∈ st.entries, goodList used p.2) →
      (∀ c ∈ cs, c.bn ∉ used) →
      (cs.map (fun c => c.bn)).Nodup →
      (∀ c ∈ cs, (c.jdata.map (fun d => d.name)).Nodup) →
      ∀ p ∈ (ingestAll st cs).entries,
        goodList ((cs.map (fun c => c.bn)).reverse ++ used) p.2 := by
  intro cs
  induction cs with
  | nil =>
    intro st used hinv _ _ _
    simpa using hinv
  | cons c rest ih =>
    intro st used hinv hnotin hnodup hnames
    simp only [List.map_cons, List.nodup_cons] at hnodup
    have hinv' : ∀ p ∈ (st.ingest c.jdata c.bn c.bt).entries, goodList (c.bn :: used) p.2 :=
      ingest_inv (hnotin c (List.mem_cons_self c rest))
        (hnames c (List.mem_cons_self c rest)) hinv
    have hnotin' : ∀ c' ∈ rest, c'.bn ∉ c.bn :: used := by
      intro c' hc' hmem
      rcases List.mem_cons.mp hmem with h | h
      · exact hnodup.1 (h ▸ List.mem_map.mpr ⟨c', hc', rfl⟩)
      · exact hnotin c' (List.mem_cons_of_mem c hc') h
    have hrest := ih (st.ingest c.jdata c.bn c.bt) (c.bn :: used) hinv' hnotin'
      hnodup.2 (fun c' hc' => hnames c' (List.mem_cons_of_mem c hc'))
    intro p hp
    have heq : ((c :: rest).map (fun c => c.bn)).reverse ++ used
        = (rest.map (fun c => c.bn)).reverse ++ (c.bn :: used) := by simp
    rw [heq]
    exact hrest p hp

/-- C1: after any sequence of ingest calls with pairwise-distinct book
numbers (and per-batch distinct entry names), the backlink sets of the
occurrences stored in the list for one name are pairwise disjoint. -/
theorem claim1_backlinks_pairwise_disjoint (cs : List Call)
    (hbn : (cs.map (fun c => c.bn)).Nodup)
    (hnames : ∀ c ∈ cs, (c.jdata.map (fun d => d.name)).Nodup)
    (n : List Char) (l : List DictEntry)
    (h : lookupA (ingestAll WoTDict.empty cs).entries n = some l) :
    l.Pairwise (fun a b => Disjoint a.backlinks b.backlinks) := by
  have hall := ingestAll_inv cs WoTDict.empty [] (by intro p hp; cases hp)
    (by intro c _ hc; cases hc) hbn hnames
  obtain ⟨p, hp, _, hp2⟩ := lookupA_mem h
  have hg := hall p hp
  rw [hp2] at hg
  exact hg.2.2

theorem claim1_backlinks_pairwise_disjoint_witness :
    List.Pairwise (fun a b => Disjoint a.backlinks b.backlinks)
      [({ book_number := 1, book_title := ("B1").data, chapter := ("c").data,
          definition := ("see").data, backlinks := ∅ } : DictEntry)] :=
  claim1_backlinks_pairwise_disjoint
    [⟨[⟨("r").data, ("Rand").data, ("c").data, ("see").data⟩], 1, ("B1").data⟩]
    (by decide) (by decide) (("Rand").data) _ (by decide)

/-! ### C2: pruning only reattributes, the union of backlinks is preserved -/

/-- The union of the backlink sets stored for name `n`. -/
def storedBL (st : WoTDict) (n : List Char) : Finset (List Char) :=
  match lookupA st.entries n with
  | some l => unionBL l
  | none => ∅

/-- The union of the raw per-book backlink sets that the ingest calls of
`cs` compute for name `n`, each against the pattern table as merged at
that call. -/
def rawUnion (ps : List (List Char × List Char)) (n : List Char) :
    List Call → Finset (List Char)
  | [] => ∅
  | c :: cs =>
    (if n ∈ batchNames c.jdata
        then findBacklinks (dictMerge ps (compileLinkPatterns c.jdata)) n c.jdata
        else ∅)
      ∪ rawUnion (dictMerge ps (compileLinkPatterns c.jdata)) n cs

theorem ingest_storedBL (st : WoTDict) (jdata : List BookData) (bn : Nat) (bt n : List Char)
    (hnames : (jdata.map (fun d => d.name)).Nodup) :
    storedBL (st.ingest jdata bn bt) n
      = storedBL st n
        ∪ (if n ∈ batchNames jdata
            then findBacklinks (dictMerge st.link_patterns (compileLinkPatterns jdata)) n jdata
            else ∅) := by
  by_cases hn : n ∈ batchNames jdata
  · rw [if_pos hn]
    obtain ⟨d, hd, hdn⟩ : ∃ d ∈ jdata, d.name = n := by
      obtain ⟨d, hd, h⟩ := List.mem_map.mp hn
      exact ⟨d, hd, h⟩
    subst hdn
    obtain ⟨lnew, hl, hcase⟩ := foldl_ingestStep_lookup jdata st.entries d.name hnames d hd rfl
    have hl' : lookupA (st.ingest jdata bn bt).entries d.name = some lnew := hl
    have hsb : storedBL (st.ingest jdata bn bt) d.name = unionBL lnew := by
      unfold storedBL; rw [hl']
    rw [hsb]
    rcases hcase with ⟨lold, hlo, hnew⟩ | ⟨hlo, hnew⟩
    · have hsb2 : storedBL st d.name = unionBL lold := by
        unfold storedBL; rw [hlo]
      rw [hsb2, hnew, prune_unionBL, unionBL_perm (sortEntries_perm _)]
      have hsplit : unionBL
            (mkEntry (dictMerge st.link_patterns (compileLinkPatterns jdata)) d bn bt jdata
              :: lold)
          = (mkEntry (dictMerge st.link_patterns (compileLinkPatterns jdata)) d bn bt jdata).backlinks
              ∪ unionBL lold := rfl
      rw [hsplit]
      have hbk : (mkEntry (dictMerge st.link_patterns (compileLinkPatterns jdata)) d bn bt
          jdata).backlinks
          = findBacklinks (dictMerge st.link_patterns (compileLinkPatterns jdata)) d.name
              jdata := rfl
      rw [hbk, Finset.union_comm]
    · have hsb2 : storedBL st d.name = ∅ := by
        unfold storedBL; rw [hlo]
      rw [hsb2, hnew]
      have hu : unionBL [mkEntry (dictMerge st.link_patterns (compileLinkPatterns jdata)) d bn bt
          jdata]
          = findBacklinks (dictMerge st.link_patterns (compileLinkPatterns jdata)) d.name
              jdata ∪ ∅ := rfl
      rw [hu]
      simp
  · rw [if_neg hn]
    have hfr : ∀ d ∈ jdata, d.name ≠ n := by
      intro d hd heq
      exact hn (heq ▸ List.mem_map.mpr ⟨d, hd, rfl⟩)
    have hlook : lookupA (st.ingest jdata bn bt).entries n = lookupA st.entries n :=
      foldl_ingestStep_frame jdata st.entries n hfr
    unfold storedBL
    rw [hlook]
    simp

theorem ingestAll_storedBL :
    ∀ (cs : List Call) (st : WoTDict) (n : List Char),
      (∀ c ∈ cs, (c.jdata.map (fun d => d.name)).Nodup) →
      storedBL (ingestAll st cs) n = storedBL st n ∪ rawUnion st.link_patterns n cs := by
  intro cs
  induction cs with
  | nil =>
    intro st n _
    simp [ingestAll, rawUnion]
  | cons c rest ih =>
    intro st n hnames
    have h1 := ingest_storedBL st c.jdata c.bn c.bt n (hnames c (List.mem_cons_self c rest))
    have h2 := ih (st.ingest c.jdata c.bn c.bt) n
      (fun c' hc' => hnames c' (List.mem_cons_of_mem c hc'))
    calc storedBL (ingestAll st (c :: rest)) n
        = storedBL (ingestAll (st.ingest c.jdata c.bn c.bt) rest) n := rfl
      _ = storedBL (st.ingest c.jdata c.bn c.bt) n
            ∪ rawUnion (st.ingest c.jdata c.bn c.bt).link_patterns n rest := h2
      _ = (storedBL st n
            ∪ (if n ∈ batchNames c.jdata
                then findBacklinks (dictMerge st.link_patterns (compileLinkPatterns c.jdata))
                  n c.jdata
                else ∅))
            ∪ rawUnion (dictMerge st.link_patterns (compileLinkPatterns c.jdata)) n rest := by
          rw [h1]
          rfl
      _ = storedBL st n
            ∪ ((if n ∈ batchNames c.jdata
                then findBacklinks (dictMerge st.link_patterns (compileLinkPatterns c.jdata))
                  n c.jdata
                else ∅)
              ∪ rawUnion (dictMerge st.link_patterns (compileLinkPatterns c.jdata)) n rest) :=
          Finset.union_assoc _ _ _
      _ = storedBL st n ∪ rawUnion st.link_patterns n (c :: rest) := rfl

/-- C2: for every entry name, the union of the stored (pruned) backlink
sets after any sequence of ingest calls equals the union of the raw
per-book backlink sets computed at each ingestion: pruning removes no
referencing name, it only reattributes it. -/
theorem claim2_union_preserved (cs : List Call) (n : List Char)
    (hbn : (cs.map (fun c => c.bn)).Nodup)
    (hnames : ∀ c ∈ cs, (c.jdata.map (fun d => d.name)).Nodup) :
    storedBL (ingestAll WoTDict.empty cs) n = rawUnion [] n cs := by
  rw [ingestAll_storedBL cs WoTDict.empty n hnames]
  have hempty : storedBL WoTDict.empty n = ∅ := rfl
  have hlp : WoTDict.empty.link_patterns = [] := rfl
  rw [hempty, hlp]
  simp

theorem claim2_union_preserved_witness :
    storedBL
        (ingestAll WoTDict.empty
          [⟨[⟨("r").data, ("Rand").data, ("c").data, ("see").data⟩], 1, ("B1").data⟩])
        (("Rand").data)
      = rawUnion []
          (("Rand").data)
          [⟨[⟨("r").data, ("Rand").data, ("c").data, ("see").data⟩], 1, ("B1").data⟩] :=
  claim2_union_preserved _ _ (by decide) (by decide)

/-! ### C3: single-book backlink consistency -/

/-- C3: after ingesting a single book into a fresh accumulator, entry `X`
stores exactly one occurrence, and its backlink set contains `Y`'s display
name iff `Y`'s raw text contains a markdown link `[label](#id)` for an
identifier `id` whose pattern-table target name is `X`'s display name. -/
theorem claim3_single_book_backlinks (jdata : List BookData) (bn : Nat) (bt : List Char)
    (X Y : BookData) (hX : X ∈ jdata) (hY : Y ∈ jdata)
    (hnames : (jdata.map (fun d => d.name)).Nodup) :
    ∃ eX, lookupA (WoTDict.empty.ingest jdata bn bt).entries X.name = some [eX]
      ∧ (Y.name ∈ eX.backlinks
          ↔ ∃ id, (id, X.name) ∈ (WoTDict.empty.ingest jdata bn bt).link_patterns
              ∧ OccursLink id Y.info) := by
  obtain ⟨lnew, hl, hcase⟩ :=
    foldl_ingestStep_lookup jdata WoTDict.empty.entries X.name hnames X hX rfl
  have hl' : lookupA (WoTDict.empty.ingest jdata bn bt).entries X.name = some lnew := hl
  rcases hcase with ⟨lold, hlo, _⟩ | ⟨_, hnew⟩
  · exact absurd hlo (by simp [WoTDict.empty, lookupA])
  · refine ⟨mkEntry (dictMerge WoTDict.empty.link_patterns (compileLinkPatterns jdata))
      X bn bt jdata, ?_, ?_⟩
    · rw [hl', hnew]
    · have hbk : (mkEntry (dictMerge WoTDict.empty.link_patterns (compileLinkPatterns jdata))
          X bn bt jdata).backlinks
          = findBacklinks (dictMerge WoTDict.empty.link_patterns (compileLinkPatterns jdata))
              X.name jdata := rfl
      rw [hbk]
      have hpats : (WoTDict.empty.ingest jdata bn bt).link_patterns
          = dictMerge WoTDict.empty.link_patterns (compileLinkPatterns jdata) := rfl
      rw [hpats]
      unfold findBacklinks
      rw [List.mem_toFinset]
      constructor
      · intro hm
        obtain ⟨jd, hjdf, hjdn⟩ := List.mem_map.mp hm
        obtain ⟨hjd, hpred⟩ := List.mem_filter.mp hjdf
        have hjdY : jd = Y := List.inj_on_of_nodup_map hnames hjd hY hjdn
        subst hjdY
        obtain ⟨p, hp, hpb⟩ := List.any_eq_true.mp hpred
        rw [Bool.and_eq_true] at hpb
        refine ⟨p.1, ?_, containsLink_iff.mp hpb.2⟩
        have : p.2 = X.name := beq_iff_eq.mp hpb.1
        rw [← this]
        exact hp
      · rintro ⟨id, hid, hocc⟩
        apply List.mem_map.mpr
        refine ⟨Y, List.mem_filter.mpr ⟨hY, ?_⟩, rfl⟩
        apply List.any_eq_true.mpr
        refine ⟨(id, X.name), hid, ?_⟩
        rw [Bool.and_eq_true]
        exact ⟨beq_iff_eq.mpr rfl, containsLink_iff.mpr hocc⟩

theorem claim3_single_book_backlinks_witness :
    ∃ eX, lookupA (WoTDict.empty.ingest
        [⟨("rand").data, ("Rand").data, ("c1").data, ("the Dragon").data⟩,
         ⟨("mat").data, ("Mat").data, ("c2").data, ("see [him](#rand)").data⟩]
        1 ("B1").data).entries (("Rand").data) = some [eX]
      ∧ ((("Mat").data ∈ eX.backlinks)
          ↔ ∃ id, (id, ("Rand").data) ∈ (WoTDict.empty.ingest
              [⟨("rand").data, ("Rand").data, ("c1").data, ("the Dragon").data⟩,
               ⟨("mat").data, ("Mat").data, ("c2").data, ("see [him](#rand)").data⟩]
              1 ("B1").data).link_patterns
            ∧ OccursLink id (("see [him](#rand)").data)) :=
  claim3_single_book_backlinks
    [⟨("rand").data, ("Rand").data, ("c1").data, ("the Dragon").data⟩,
     ⟨("mat").data, ("Mat").data, ("c2").data, ("see [him](#rand)").data⟩]
    1 (("B1").data)
    ⟨("rand").data, ("Rand").data, ("c1").data, ("the Dragon").data⟩
    ⟨("mat").data, ("Mat").data, ("c2").data, ("see [him](#rand)").data⟩
    (by decide) (by decide) (by decide)

/-! ### Identity behaviour of the rewrite passes -/

theorem splitAtFirst_mem {ch : Char} {s : List Char} {a b : List Char}
    (h : splitAtFirst ch s = some (a, b)) : ch ∈ s := by
  obtain ⟨hs, _⟩ := splitAtFirst_eq h
  rw [hs]
  simp

theorem emphSub_of_no_und {s : List Char} (h : und ∉ s) : emphSub s = s := by
  rcases hsp : splitAtFirst und s with _ | ⟨a, b⟩
  · exact emphSub_no1 hsp
  · exact absurd (splitAtFirst_mem hsp) h

theorem containsLink_false_of_no_lbrack {id : List Char} :
    ∀ {s : List Char}, lbrack ∉ s → containsLink id s = false := by
  intro s
  induction s with
  | nil => intro _; rfl
  | cons c t ih =>
    intro h
    have hc : ¬ c = lbrack := fun hh => h (by simp [hh])
    have ht : lbrack ∉ t := fun hh => h (by simp [hh])
    simp only [containsLink, tryLink, if_neg hc, Bool.or_eq_true, Option.isSome_none]
    simp [ih ht]

theorem linkSub_of_not_contains {id nm : List Char} :
    ∀ {s : List Char}, containsLink id s = false → linkSub id nm s = s := by
  intro s
  induction s with
  | nil => intro _; rfl
  | cons c t ih =>
    intro h
    simp only [containsLink, Bool.or_eq_false_iff] at h
    have h1 : tryLink id (c :: t) = none := by
      rcases htl : tryLink id (c :: t) with _ | p
      · rfl
      · rw [htl] at h; simp at h
    rw [linkSub_skip h1, ih h.2]

theorem foldl_linkSub_id {s : List Char} :
    ∀ {ps : List (List Char × List Char)}, (∀ q ∈ ps, containsLink q.1 s = false) →
      ps.foldl (fun d p => linkSub p.1 p.2 d) s = s := by
  intro ps
  induction ps with
  | nil => intro _; rfl
  | cons q t ih =>
    intro h
    rw [List.foldl_cons, linkSub_of_not_contains (h q (List.mem_cons_self q t))]
    exact ih (fun q' hq' => h q' (List.mem_cons_of_mem q hq'))

theorem stripPre_ids_none :
    ∀ (id2 id y : List Char), rpar ∉ id → rpar ∉ id2 → id ≠ id2 →
      stripPre (id2 ++ [rpar]) (id ++ rpar :: y) = none := by
  intro id2
  induction id2 with
  | nil =>
    intro id y hr1 _ hne
    match id with
    | [] => exact absurd rfl hne
    | c :: id' =>
      have : ¬ rpar = c := fun hh => hr1 (by simp [← hh])
      simp [stripPre, this]
  | cons c2 id2' ih =>
    intro id y hr1 hr2 hne
    match id with
    | [] =>
      have : ¬ c2 = rpar := fun hh => hr2 (by simp [hh])
      simp [stripPre, this]
    | c :: id' =>
      by_cases hc : c2 = c
      · subst hc
        have hr1' : rpar ∉ id' := fun hh => hr1 (by simp [hh])
        have hr2' : rpar ∉ id2' := fun hh => hr2 (by simp [hh])
        have hne' : id' ≠ id2' := fun hh => hne (by rw [hh])
        simp only [List.cons_append, stripPre, if_pos rfl]
        exact ih id' y hr1' hr2' hne'
      · simp [stripPre, hc]

theorem lbrack_not_mem_linkTail {id : List Char} (h : lbrack ∉ id) :
    lbrack ∉ linkTail id [] := by
  intro hm
  unfold linkTail at hm
  rcases List.mem_cons.mp hm with h1 | hm
  · exact absurd h1 (by decide)
  rcases List.mem_cons.mp hm with h1 | hm
  · exact absurd h1 (by decide)
  rcases List.mem_append.mp hm with h1 | h1
  · exact h h1
  · rcases List.mem_cons.mp h1 with h2 | h2
    · exact absurd h2 (by decide)
    · cases h2

theorem tryLink_ne_at_lbrack {id id2 label' : List Char}
    (hne : id ≠ id2) (hr1 : rpar ∉ id) (hr2 : rpar ∉ id2) (hnl : rbrack ∉ label') :
    tryLink id2 (lbrack :: (label' ++ rbrack :: linkTail id [])) = none := by
  have h1 : splitAtFirst rbrack (label' ++ rbrack :: linkTail id [])
      = some (label', linkTail id []) := splitAtFirst_of _ hnl
  have h2 : stripPre (lpar :: hashc :: (id2 ++ [rpar])) (linkTail id [])
      = none := by
    unfold linkTail
    simp only [stripPre, if_pos rfl]
    exact stripPre_ids_none id2 id [] hr1 hr2 hne
  dsimp only [tryLink]
  rw [if_pos rfl, h1]
  dsimp only
  rw [h2]

theorem containsLink_linkShape_ne {id id2 : List Char}
    (hne : id ≠ id2) (hr1 : rpar ∉ id) (hr2 : rpar ∉ id2) (hlb : lbrack ∉ id) :
    ∀ (label' : List Char), rbrack ∉ label' →
      containsLink id2 (label' ++ rbrack :: linkTail id []) = false := by
  intro label'
  induction label' with
  | nil =>
    intro _
    rw [List.nil_append]
    have hc : ¬ rbrack = lbrack := by decide
    simp only [containsLink, tryLink, if_neg hc, Option.isSome_none, Bool.false_or]
    exact containsLink_false_of_no_lbrack (by
      intro hm
      rcases List.mem_append.mp hm with h1 | h1
      · exact hlb h1
      · rcases List.mem_cons.mp h1 with h2 | h2
        · exact absurd h2 (by decide)
        · cases h2)
  | cons c rest ih =>
    intro hnl
    have hnl' : rbrack ∉ rest := fun hh => hnl (by simp [hh])
    rw [List.cons_append]
    by_cases hc : c = lbrack
    · subst hc
      simp only [containsLink, Bool.or_eq_false_iff]
      constructor
      · rw [tryLink_ne_at_lbrack hne hr1 hr2 hnl']
        rfl
      · exact ih hnl'
    · simp only [containsLink, tryLink, if_neg hc, Option.isSome_none, Bool.false_or]
      exact ih hnl'

theorem containsLink_linkShape_ne' {id id2 label : List Char}
    (hne : id ≠ id2) (hr1 : rpar ∉ id) (hr2 : rpar ∉ id2) (hlb : lbrack ∉ id)
    (hnl : rbrack ∉ label) :
    containsLink id2 (linkShape id label []) = false := by
  unfold linkShape
  have hc : ¬ lbrack = lbrack → False := fun h => h rfl
  simp only [containsLink, Bool.or_eq_false_iff]
  constructor
  · have := @tryLink_ne_at_lbrack id id2 label hne hr1 hr2 hnl
    rw [show lbrack :: (label ++ rbrack :: linkTail id [])
        = lbrack :: label ++ rbrack :: linkTail id [] from by simp] at this
    rw [show (lbrack :: (label ++ rbrack :: linkTail id []) : List Char)
        = lbrack :: label ++ rbrack :: linkTail id [] from by simp]
    rw [this]
    rfl
  · exact containsLink_linkShape_ne hne hr1 hr2 hlb label hnl

/-! ### C4: what the link rewriter actually produces -/

/-- C4 counterexample: the rewriter keeps the original link label as the
visible anchor text; it does not replace it by the display name. -/
theorem claim4_label_kept_counterexample :
    convertDefiLinks [(("rand").data, ("Rand").data)] (("[the Dragon](#rand)").data)
        = ("<a class=\"dict-internal-link\" href=\"bword://Rand\">the Dragon</a>").data
      ∧ ("<a class=\"dict-internal-link\" href=\"bword://Rand\">the Dragon</a>").data
        ≠ ("<a class=\"dict-internal-link\" href=\"bword://Rand\">Rand</a>").data := by
  constructor
  · decide
  · decide

/-- C4 (amended): for a link `[label](#id)` whose identifier is in the
pattern table, the rewriter produces a dictionary-internal hyperlink whose
link target is the display name mapped to `id` and whose visible anchor
text is the original link label (the label is preserved, not discarded). -/
theorem claim4_link_rewrite_amended (p1 p2 : List (List Char × List Char))
    (id name label : List Char)
    (hr : rpar ∉ id) (hlbid : lbrack ∉ id) (hund : und ∉ id)
    (hnl : rbrack ∉ label) (hlbl : lbrack ∉ label) (hundl : und ∉ label)
    (hlbn : lbrack ∉ name)
    (hp1 : ∀ q ∈ p1, q.1 ≠ id ∧ rpar ∉ q.1) :
    convertDefiLinks (p1 ++ (id, name) :: p2) (linkShape id label [])
      = aTagL name label := by
  unfold convertDefiLinks
  have hemph : emphSub (linkShape id label []) = linkShape id label [] := by
    apply emphSub_of_no_und
    intro hm
    unfold linkShape at hm
    rcases List.mem_cons.mp hm with h1 | hm
    · exact absurd h1 (by decide)
    rcases List.mem_append.mp hm with h1 | hm
    · exact hundl h1
    rcases List.mem_cons.mp hm with h1 | hm
    · exact absurd h1 (by decide)
    unfold linkTail at hm
    rcases List.mem_cons.mp hm with h1 | hm
    · exact absurd h1 (by decide)
    rcases List.mem_cons.mp hm with h1 | hm
    · exact absurd h1 (by decide)
    rcases List.mem_append.mp hm with h1 | h1
    · exact hund h1
    rcases List.mem_cons.mp h1 with h2 | h2
    · exact absurd h2 (by decide)
    · cases h2
  rw [hemph, List.foldl_append]
  have h1 : p1.foldl (fun d p => linkSub p.1 p.2 d) (linkShape id label [])
      = linkShape id label [] := by
    apply foldl_linkSub_id
    intro q hq
    exact containsLink_linkShape_ne' (fun hh => (hp1 q hq).1 hh.symm) hr (hp1 q hq).2
      hlbid hnl
  rw [h1, List.foldl_cons]
  have h2 : linkSub id name (linkShape id label []) = aTagL name label := by
    have htl : tryLink id (lbrack :: (label ++ rbrack :: linkTail id []))
        = some (label, []) := tryLink_of hnl
    have hm := @linkSub_match _ name _ _ _ _ htl
    rw [show linkShape id label [] = lbrack :: (label ++ rbrack :: linkTail id [])
        from rfl]
    rw [hm, linkSub_nil, List.append_nil]
  rw [h2]
  apply foldl_linkSub_id
  intro q _
  apply containsLink_false_of_no_lbrack
  intro hm
  unfold aTagL at hm
  rcases List.mem_append.mp hm with hm | h1
  · rcases List.mem_append.mp hm with hm | h1
    · rcases List.mem_append.mp hm with hm | h1
      · rcases List.mem_append.mp hm with h1 | h1
        · exact absurd h1 (by decide)
        · exact hlbn h1
      · exact absurd h1 (by decide)
    · exact hlbl h1
  · exact absurd h1 (by decide)

theorem claim4_link_rewrite_amended_witness :
    convertDefiLinks
        [(("lews").data, ("Lews").data), (("rand").data, ("Rand").data),
          (("mat").data, ("Mat").data)]
        (linkShape (("rand").data) (("the Dragon").data) [])
      = aTagL (("Rand").data) (("the Dragon").data) :=
  claim4_link_rewrite_amended [(("lews").data, ("Lews").data)]
    [(("mat").data, ("Mat").data)] (("rand").data) (("Rand").data) (("the Dragon").data)
    (by decide) (by decide) (by decide) (by decide) (by decide) (by decide) (by decide)
    (by decide)

/-! ### List alignment helpers -/

theorem append3_cases {α : Type} (A B x v y : List α) (h : A ++ B = x ++ (v ++ y)) :
    (∃ y1, A = x ++ (v ++ y1) ∧ y = y1 ++ B)
      ∨ (∃ x1, x = A ++ x1 ∧ B = x1 ++ (v ++ y))
      ∨ (∃ v1 v2, v = v1 ++ v2 ∧ v1 ≠ [] ∧ v2 ≠ [] ∧ A = x ++ v1 ∧ B = v2 ++ y) := by
  rcases List.append_eq_append_iff.mp h with ⟨t, hx, hB⟩ | ⟨t, hA, hvy⟩
  · exact Or.inr (Or.inl ⟨t, hx, hB⟩)
  · rcases List.append_eq_append_iff.mp hvy.symm with ⟨w, hv, hB⟩ | ⟨w, ht, hy⟩
    · by_cases htn : t = []
      · subst htn
        refine Or.inr (Or.inl ⟨[], by simpa using hA.symm, ?_⟩)
        simp only [List.nil_append] at hv
        rw [hB, hv]
        simp
      · by_cases hw : w = []
        · subst hw
          refine Or.inl ⟨[], ?_, ?_⟩
          · simp only [List.append_nil] at hv
            rw [hA, hv]
            simp
          · simpa using hB.symm
        · exact Or.inr (Or.inr ⟨t, w, hv, htn, hw, hA, hB⟩)
    · refine Or.inl ⟨w, ?_, hy⟩
      rw [hA, ht]

theorem eq_of_firstStop {ch : Char} :
    ∀ {a b u w : List Char}, ch ∉ a → ch ∉ b → a ++ ch :: u = b ++ ch :: w →
      a = b ∧ u = w := by
  intro a
  induction a with
  | nil =>
    intro b u w _ hb h
    match b with
    | [] =>
      simp only [List.nil_append, List.cons.injEq] at h
      exact ⟨rfl, h.2⟩
    | c :: b' =>
      simp only [List.nil_append, List.cons_append, List.cons.injEq] at h
      exact absurd (by simp [h.1]) hb
  | cons c a' ih =>
    intro b u w ha hb h
    match b with
    | [] =>
      simp only [List.cons_append, List.nil_append, List.cons.injEq] at h
      exact absurd (by simp [h.1]) ha
    | c2 :: b' =>
      simp only [List.cons_append, List.cons.injEq] at h
      have ha' : ch ∉ a' := fun hh => ha (by simp [hh])
      have hb' : ch ∉ b' := fun hh => hb (by simp [hh])
      obtain ⟨h1, h2⟩ := ih ha' hb' h.2
      exact ⟨by rw [h.1, h1], h2⟩

theorem eq_of_lastStop {ch : Char} {a b u w : List Char}
    (hu : ch ∉ u) (hw : ch ∉ w) (h : a ++ ch :: u = b ++ ch :: w) : a = b ∧ u = w := by
  have hrev : u.reverse ++ ch :: a.reverse = w.reverse ++ ch :: b.reverse := by
    have := congrArg List.reverse h
    simpa using this
  have hu' : ch ∉ u.reverse := by simpa using hu
  have hw' : ch ∉ w.reverse := by simpa using hw
  obtain ⟨h1, h2⟩ := eq_of_firstStop hu' hw' hrev
  constructor
  · have := congrArg List.reverse h2
    simpa using this
  · have := congrArg List.reverse h1
    simpa using this

theorem suffix_after_marker {ch : Char} :
    ∀ (A : List Char) {R x w : List Char}, ch ∉ w → A ++ ch :: R = x ++ w →
      ∃ t, R = t ++ w := by
  intro A
  induction A with
  | nil =>
    intro R x w hw h
    match x with
    | [] =>
      simp only [List.nil_append] at h
      match w with
      | [] => exact ⟨R, by simp⟩
      | c :: w' =>
        rw [← h] at hw
        exact absurd (by simp) hw
    | c :: x' =>
      simp only [List.nil_append, List.cons_append, List.cons.injEq] at h
      exact ⟨x', h.2⟩
  | cons a A' ih =>
    intro R x w hw h
    match x with
    | [] =>
      simp only [List.nil_append] at h
      rw [← h] at hw
      exact absurd (by simp) hw
    | c :: x' =>
      simp only [List.cons_append, List.cons.injEq] at h
      exact ih hw h.2

theorem count_align {ch : Char} {A R x α β z : List Char}
    (hA : ch ∉ A) (hR : ch ∉ R) (hα : ch ∉ α) (hβ : ch ∉ β)
    (h : A ++ ch :: R = x ++ ((α ++ ch :: β) ++ z)) : A = x ++ α ∧ R = β ++ z := by
  have hcnt := congrArg (List.count ch) h
  simp only [List.count_append, List.count_cons] at hcnt
  rw [List.count_eq_zero.mpr hA, List.count_eq_zero.mpr hR,
    List.count_eq_zero.mpr hα, List.count_eq_zero.mpr hβ] at hcnt
  simp at hcnt
  have hx : ch ∉ x := List.count_eq_zero.mp (by omega)
  have h' : A ++ ch :: R = (x ++ α) ++ ch :: (β ++ z) := by
    rw [h]; simp
  have hxa : ch ∉ x ++ α := by
    intro hm
    rcases List.mem_append.mp hm with hm | hm
    · exact hx hm
    · exact hα hm
  exact eq_of_firstStop hA hxa h'

/-! ### A foreign link survives every substitution pass -/

theorem tryLink_none_of_head {id : List Char} {c : Char} {t : List Char}
    (hc : c ≠ lbrack) : tryLink id (c :: t) = none := by
  simp [tryLink, hc]

theorem linkSub_through {id2 nm2 : List Char} :
    ∀ (w : List Char), lbrack ∉ w → ∀ (yy : List Char),
      linkSub id2 nm2 (w ++ yy) = w ++ linkSub id2 nm2 yy := by
  intro w
  induction w with
  | nil => intro _ yy; simp
  | cons c w' ih =>
    intro h yy
    have hc : c ≠ lbrack := fun hh => h (by simp [hh])
    have h' : lbrack ∉ w' := fun hh => h (by simp [hh])
    rw [List.cons_append, linkSub_skip (tryLink_none_of_head hc), ih h' yy]
    simp

theorem linkTail_append {id : List Char} (y : List Char) :
    linkTail id [] ++ y = linkTail id y := by
  simp [linkTail]

theorem linkShape_split {id l : List Char} (r : List Char) :
    linkShape id l r = linkShape id l [] ++ r := by
  simp [linkShape, linkTail]

theorem linkShape_marker {id l : List Char} :
    linkShape id l [] = (lbrack :: l) ++ rbrack :: (lpar :: hashc :: (id ++ [rpar])) := by
  simp [linkShape, linkTail]

theorem tryLink_ne_at_lbrack_gen {id id2 label' y' : List Char}
    (hne : id ≠ id2) (hr1 : rpar ∉ id) (hr2 : rpar ∉ id2) (hnl : rbrack ∉ label') :
    tryLink id2 (lbrack :: (label' ++ rbrack :: linkTail id y')) = none := by
  have h1 : splitAtFirst rbrack (label' ++ rbrack :: linkTail id y')
      = some (label', linkTail id y') := splitAtFirst_of _ hnl
  have h2 : stripPre (lpar :: hashc :: (id2 ++ [rpar])) (linkTail id y') = none := by
    unfold linkTail
    simp only [stripPre, if_pos rfl]
    exact stripPre_ids_none id2 id y' hr1 hr2 hne
  dsimp only [tryLink]
  rw [if_pos rfl, h1]
  dsimp only
  rw [h2]

theorem linkSub_through_label {id id2 nm2 : List Char} (hne : id ≠ id2) (hr1 : rpar ∉ id)
    (hr2 : rpar ∉ id2) (hlbid : lbrack ∉ id) :
    ∀ (label2 : List Char), rbrack ∉ label2 → ∀ (yy : List Char),
      linkSub id2 nm2 (label2 ++ rbrack :: linkTail id yy)
        = label2 ++ rbrack :: linkTail id (linkSub id2 nm2 yy) := by
  intro label2
  induction label2 with
  | nil =>
    intro _ yy
    rw [List.nil_append, List.nil_append,
      linkSub_skip (tryLink_none_of_head (by decide))]
    have hw : lbrack ∉ lpar :: hashc :: (id ++ [rpar]) := by
      intro hm
      rcases List.mem_cons.mp hm with h1 | hm
      · exact absurd h1 (by decide)
      rcases List.mem_cons.mp hm with h1 | hm
      · exact absurd h1 (by decide)
      rcases List.mem_append.mp hm with h1 | h1
      · exact hlbid h1
      · rcases List.mem_cons.mp h1 with h2 | h2
        · exact absurd h2 (by decide)
        · cases h2
    have h1 : linkTail id yy = (lpar :: hashc :: (id ++ [rpar])) ++ yy := by
      simp [linkTail]
    have h2 : linkTail id (linkSub id2 nm2 yy)
        = (lpar :: hashc :: (id ++ [rpar])) ++ linkSub id2 nm2 yy := by
      simp [linkTail]
    rw [h1, linkSub_through _ hw yy, h2]
  | cons c rest ih =>
    intro h yy
    have h' : rbrack ∉ rest := fun hh => h (by simp [hh])
    rw [List.cons_append]
    by_cases hc : c = lbrack
    · subst hc
      rw [linkSub_skip (tryLink_ne_at_lbrack_gen hne hr1 hr2 h'), ih h' yy]
      simp
    · rw [linkSub_skip (tryLink_none_of_head hc), ih h' yy]
      simp

theorem linkSub_keeps {id label id2 nm2 : List Char}
    (hne : id ≠ id2) (hr1 : rpar ∉ id) (hr2 : rpar ∉ id2)
    (hlbid : lbrack ∉ id) (hlb2 : lbrack ∉ id2)
    (hrbid : rbrack ∉ id) (hrb2 : rbrack ∉ id2)
    (hnl : rbrack ∉ label) :
    ∀ (n : Nat) (x y : List Char),
      (x ++ (linkShape id label [] ++ y)).length ≤ n →
      ∃ x1 y1, linkSub id2 nm2 (x ++ (linkShape id label [] ++ y))
        = x1 ++ (linkShape id label [] ++ y1) := by
  intro n
  induction n with
  | zero =>
    intro x y hlen
    exfalso
    simp [linkShape] at hlen
  | succ n ih =>
    intro x y hlen
    match x with
    | [] =>
      rw [List.nil_append] at hlen ⊢
      have hshape : linkShape id label [] ++ y = lbrack :: (label ++ rbrack :: linkTail id y) := by
        rw [← linkShape_split]
        rfl
      rw [hshape, linkSub_skip (tryLink_ne_at_lbrack_gen hne hr1 hr2 hnl),
        linkSub_through_label hne hr1 hr2 hlbid label hnl y]
      refine ⟨[], linkSub id2 nm2 y, ?_⟩
      rw [List.nil_append, ← linkShape_split]
      rfl
    | c0 :: x' =>
      rw [List.cons_append] at hlen ⊢
      rcases htl : tryLink id2 (c0 :: (x' ++ (linkShape id label [] ++ y)))
          with _ | ⟨label2, rest2⟩
      · rw [linkSub_skip htl]
        obtain ⟨x1, y1, hrec⟩ := ih x' y (by simp at hlen ⊢; omega)
        exact ⟨c0 :: x1, y1, by rw [hrec]; simp⟩
      · obtain ⟨hsM, hnl2⟩ := tryLink_some htl
        rw [linkSub_match htl]
        have hM : linkShape id2 label2 [] ++ rest2
            = (c0 :: x') ++ (linkShape id label [] ++ y) := by
          rw [← linkShape_split, ← hsM]
          rfl
        have hT1free : rbrack ∉ lpar :: hashc :: (id ++ [rpar]) := by
          intro hm
          rcases List.mem_cons.mp hm with h1 | hm
          · exact absurd h1 (by decide)
          rcases List.mem_cons.mp hm with h1 | hm
          · exact absurd h1 (by decide)
          rcases List.mem_append.mp hm with h1 | h1
          · exact hrbid h1
          · rcases List.mem_cons.mp h1 with h2 | h2
            · exact absurd h2 (by decide)
            · cases h2
        have hT2free : rbrack ∉ lpar :: hashc :: (id2 ++ [rpar]) := by
          intro hm
          rcases List.mem_cons.mp hm with h1 | hm
          · exact absurd h1 (by decide)
          rcases List.mem_cons.mp hm with h1 | hm
          · exact absurd h1 (by decide)
          rcases List.mem_append.mp hm with h1 | h1
          · exact hrb2 h1
          · rcases List.mem_cons.mp h1 with h2 | h2
            · exact absurd h2 (by decide)
            · cases h2
        rcases append3_cases _ _ _ _ _ hM with ⟨y1, hA, _⟩ | ⟨x1, _, hB⟩
          | ⟨v1, v2, hv, hv1, hv2, hA, _⟩
        · exfalso
          rw [linkShape_marker, linkShape_marker] at hA
          have hca := @count_align rbrack _ _ _ _ _ _
            (by intro hm; rcases List.mem_cons.mp hm with h1 | h1
                exacts [absurd h1 (by decide), hnl2 h1])
            hT2free
            (by intro hm; rcases List.mem_cons.mp hm with h1 | h1
                exacts [absurd h1 (by decide), hnl h1])
            hT1free
            hA
          obtain ⟨_, hR⟩ := hca
          simp only [List.cons_append, List.cons.injEq, true_and] at hR
          have hR' : id2 ++ rpar :: ([] : List Char) = id ++ rpar :: y1 := by
            simpa [List.append_assoc] using hR
          obtain ⟨hid, _⟩ := eq_of_firstStop hr2 hr1 hR'
          exact hne hid.symm
        · have hlen2 : (x1 ++ (linkShape id label [] ++ y)).length ≤ n := by
            have hlenM := congrArg List.length hM
            rw [hB] at hlenM
            have hpos : 0 < (linkShape id2 label2 []).length := by
              rw [linkShape_marker]
              simp
            simp only [List.length_cons, List.length_append] at hlenM hlen ⊢
            omega
          obtain ⟨x3, y3, hrec⟩ := ih x1 y hlen2
          rw [← hB] at hrec
          exact ⟨aTagL nm2 label2 ++ x3, y3, by rw [hrec]; simp⟩
        · exfalso
          rw [linkShape_marker] at hA hv
          by_cases hrv1 : rbrack ∈ v1
          · rcases List.append_eq_append_iff.mp hv with ⟨w, hw1, hw2⟩ | ⟨w, hw1, hw2⟩
            · match w, hw1, hw2 with
              | [], hw1, hw2 =>
                rw [List.append_nil] at hw1
                rw [hw1] at hrv1
                rcases List.mem_cons.mp hrv1 with h1 | h1
                · exact absurd h1 (by decide)
                · exact hnl h1
              | rb :: w', hw1, hw2 =>
                have hw2' := hw2.symm
                simp only [List.cons_append, List.cons.injEq] at hw2'
                obtain ⟨hrb, hT1⟩ := hw2'
                subst hrb
                have hwT1 : rbrack ∉ w' := by
                  intro hm
                  exact hT1free (hT1 ▸ List.mem_append.mpr (Or.inl hm))
                have hA' : (lbrack :: label2) ++ rbrack :: (lpar :: hashc :: (id2 ++ [rpar]))
                    = ((c0 :: x') ++ (lbrack :: label)) ++ rbrack :: w' := by
                  rw [hA, hw1]
                  simp
                obtain ⟨_, hT2w⟩ := eq_of_lastStop hT2free hwT1 hA'
                rw [← hT2w] at hT1
                have hT1' := hT1
                simp only [List.cons_append, List.cons.injEq, true_and] at hT1'
                have h4 : id2 ++ rpar :: v2 = id ++ rpar :: ([] : List Char) := by
                  simpa [List.append_assoc] using hT1'
                obtain ⟨hid, _⟩ := eq_of_firstStop hr2 hr1 h4
                exact hne hid.symm
            · have : rbrack ∈ lbrack :: label := by
                rw [hw1]
                exact List.mem_append.mpr (Or.inl hrv1)
              rcases List.mem_cons.mp this with h1 | h1
              · exact absurd h1 (by decide)
              · exact hnl h1
          · obtain ⟨t, ht⟩ := suffix_after_marker (lbrack :: label2) hrv1 hA
            have hlbv1 : lbrack ∈ v1 := by
              match v1, hv1, hv with
              | c :: v1', _, hv =>
                have hc : c = lbrack := by
                  have h5 := hv.symm
                  simp only [List.cons_append, List.cons.injEq] at h5
                  exact h5.1
                rw [hc]
                exact List.mem_cons_self _ _
            have hmem : lbrack ∈ lpar :: hashc :: (id2 ++ [rpar]) := by
              rw [ht]
              exact List.mem_append.mpr (Or.inr hlbv1)
            rcases List.mem_cons.mp hmem with h1 | hm
            · exact absurd h1 (by decide)
            rcases List.mem_cons.mp hm with h1 | hm
            · exact absurd h1 (by decide)
            rcases List.mem_append.mp hm with h1 | h1
            · exact hlb2 h1
            · rcases List.mem_cons.mp h1 with h2 | h2
              · exact absurd h2 (by decide)
              · cases h2

theorem head_mem_left {c0 : Char} {R A y : List Char} (hA : A ≠ []) (h : c0 :: R = A ++ y) :
    c0 ∈ A := by
  match A, hA with
  | a :: A', _ =>
    have hc : c0 = a := by
      simp only [List.cons_append, List.cons.injEq] at h
      exact h.1
    rw [hc]
    exact List.mem_cons_self _ _

theorem emphSub_keeps {L : List Char} (hL : L ≠ []) (hund : und ∉ L) :
    ∀ (n : Nat) (x y : List Char),
      (x ++ (L ++ y)).length ≤ n →
      ∃ x1 y1, emphSub (x ++ (L ++ y)) = x1 ++ (L ++ y1) := by
  intro n
  induction n with
  | zero =>
    intro x y hlen
    exfalso
    match L, hL with
    | c :: L', _ => simp at hlen
  | succ n ih =>
    intro x y hlen
    rcases hsp1 : splitAtFirst und (x ++ (L ++ y)) with _ | ⟨a, b⟩
    · exact ⟨x, y, emphSub_no1 hsp1⟩
    · rcases hsp2 : splitAtFirst und b with _ | ⟨c', d⟩
      · exact ⟨x, y, emphSub_no2 hsp1 hsp2⟩
      · obtain ⟨hs, hna⟩ := splitAtFirst_eq hsp1
        obtain ⟨hb, hnc⟩ := splitAtFirst_eq hsp2
        by_cases hc : c' = []
        · subst hc
          rw [List.nil_append] at hb
          have hadj := emphSub_adj hsp1 hsp2
          have hseq : a ++ (und :: und :: d) = x ++ (L ++ y) := by
            rw [← hb, ← hs]
          rcases append3_cases _ _ _ _ _ hseq with ⟨y1, hA, _⟩ | ⟨x1, _, hB⟩
            | ⟨v1, v2, hv, _, hv2, _, hB2⟩
          · exact ⟨x, y1 ++ und :: emphSub (und :: d), by rw [hadj, hA]; simp⟩
          · match x1, hB with
            | [], hB =>
              rw [List.nil_append] at hB
              exact absurd (head_mem_left hL hB) hund
            | u0 :: x1', hB =>
              have hB' : und :: d = x1' ++ (L ++ y) := by
                have := hB
                simp only [List.cons_append, List.cons.injEq] at this
                exact this.2
              have hlen2 : (x1' ++ (L ++ y)).length ≤ n := by
                have hlens := congrArg List.length hseq
                simp only [List.length_append, List.length_cons] at hlens hlen ⊢
                have hlenB := congrArg List.length hB'
                simp only [List.length_append, List.length_cons] at hlenB
                omega
              obtain ⟨x3, y3, hrec⟩ := ih x1' y hlen2
              rw [← hB'] at hrec
              exact ⟨a ++ und :: x3, y3, by rw [hadj, hrec]; simp⟩
          · exact absurd (hv.symm ▸ List.mem_append.mpr (Or.inr (head_mem_left hv2 hB2))) hund
        · have hconv := emphSub_conv hsp1 hsp2 hc
          have hseq : a ++ (und :: (c' ++ und :: d)) = x ++ (L ++ y) := by
            rw [← hb, ← hs]
          rcases append3_cases _ _ _ _ _ hseq with ⟨y1, hA, _⟩ | ⟨x1, _, hB⟩
            | ⟨v1, v2, hv, _, hv2, _, hB2⟩
          · exact ⟨x, y1 ++ emOpen ++ c' ++ emClose ++ emphSub d, by rw [hconv, hA]; simp⟩
          · match x1, hB with
            | [], hB =>
              rw [List.nil_append] at hB
              exact absurd (head_mem_left hL hB) hund
            | u0 :: x1', hB =>
              have hB' : c' ++ und :: d = x1' ++ (L ++ y) := by
                have := hB
                simp only [List.cons_append, List.cons.injEq] at this
                exact this.2
              rcases append3_cases _ _ _ _ _ hB' with ⟨y2, hA2, _⟩ | ⟨x2, _, hB2⟩
                | ⟨w1, w2, hw, _, hw2, _, hB3⟩
              · exact ⟨a ++ emOpen ++ x1', y2 ++ emClose ++ emphSub d,
                  by rw [hconv, hA2]; simp⟩
              · match x2, hB2 with
                | [], hB2 =>
                  rw [List.nil_append] at hB2
                  exact absurd (head_mem_left hL hB2) hund
                | u1 :: x2', hB2 =>
                  have hB2' : d = x2' ++ (L ++ y) := by
                    have := hB2
                    simp only [List.cons_append, List.cons.injEq] at this
                    exact this.2
                  have hlen2 : (x2' ++ (L ++ y)).length ≤ n := by
                    have hlens := congrArg List.length hseq
                    have hlensb := congrArg List.length hB'
                    simp only [List.length_append, List.length_cons] at hlens hlensb hlen ⊢
                    have hlenB := congrArg List.length hB2'
                    simp only [List.length_append, List.length_cons] at hlenB
                    omega
                  obtain ⟨x3, y3, hrec⟩ := ih x2' y hlen2
                  rw [← hB2'] at hrec
                  exact ⟨a ++ emOpen ++ c' ++ emClose ++ x3, y3, by rw [hconv, hrec]; simp⟩
              · exact absurd (hw.symm ▸ List.mem_append.mpr (Or.inr (head_mem_left hw2 hB3)))
                  hund
          · exact absurd (hv.symm ▸ List.mem_append.mpr (Or.inr (head_mem_left hv2 hB2))) hund

theorem foldl_linkSub_keeps {id label : List Char}
    (hr1 : rpar ∉ id) (hlbid : lbrack ∉ id) (hrbid : rbrack ∉ id)
    (hnl : rbrack ∉ label) :
    ∀ (ps : List (List Char × List Char)),
      (∀ p ∈ ps, p.1 ≠ id ∧ rpar ∉ p.1 ∧ lbrack ∉ p.1 ∧ rbrack ∉ p.1) →
      ∀ (x y : List Char),
        ∃ x1 y1, ps.foldl (fun d p => linkSub p.1 p.2 d) (x ++ (linkShape id label [] ++ y))
          = x1 ++ (linkShape id label [] ++ y1) := by
  intro ps
  induction ps with
  | nil => intro _ x y; exact ⟨x, y, rfl⟩
  | cons q t ih =>
    intro h x y
    obtain ⟨hne, hq1, hq2, hq3⟩ := h q (List.mem_cons_self q t)
    obtain ⟨x1, y1, h1⟩ := linkSub_keeps hne.symm hr1 hq1 hlbid hq2 hrbid hq3 hnl
      (x ++ (linkShape id label [] ++ y)).length x y (Nat.le_refl _)
    rw [List.foldl_cons, h1]
    exact ih (fun p hp => h p (List.mem_cons_of_mem q hp)) x1 y1

/-- C8: for an input text containing a markdown link `[label](#id)` whose
identifier `id` is not in the pattern table (and whose identifier and label
are free of the regex metacharacters `]`, `[`, `)` and of underscores, as
holds for real identifiers), the rewriter `_convert_defi_links` keeps that
link verbatim as an infix of its output: the output is again of the form
`x1 ++ [label](#id) ++ y1`, and the rewrite is total (no failure). -/
theorem claim8_unknown_id_link_left_verbatim
    {pats : List (List Char × List Char)} {id label x y : List Char}
    (hid : ∀ p ∈ pats, p.1 ≠ id ∧ rpar ∉ p.1 ∧ lbrack ∉ p.1 ∧ rbrack ∉ p.1)
    (hr1 : rpar ∉ id) (hlbid : lbrack ∉ id) (hrbid : rbrack ∉ id) (hundid : und ∉ id)
    (hnl : rbrack ∉ label) (hundl : und ∉ label) :
    ∃ x1 y1, convertDefiLinks pats (x ++ (linkShape id label [] ++ y))
      = x1 ++ (linkShape id label [] ++ y1) := by
  have hLne : linkShape id label [] ≠ [] := by
    rw [linkShape_marker]
    simp
  have hLund : und ∉ linkShape id label [] := by
    rw [linkShape_marker]
    intro hm
    rcases List.mem_append.mp hm with h1 | h1
    · rcases List.mem_cons.mp h1 with h2 | h2
      · exact absurd h2 (by decide)
      · exact hundl h2
    · rcases List.mem_cons.mp h1 with h2 | hm2
      · exact absurd h2 (by decide)
      rcases List.mem_cons.mp hm2 with h2 | hm2
      · exact absurd h2 (by decide)
      rcases List.mem_cons.mp hm2 with h2 | hm2
      · exact absurd h2 (by decide)
      rcases List.mem_append.mp hm2 with h2 | h2
      · exact hundid h2
      · rcases List.mem_cons.mp h2 with h3 | h3
        · exact absurd h3 (by decide)
        · cases h3
  obtain ⟨x1, y1, h1⟩ := emphSub_keeps hLne hLund
    (x ++ (linkShape id label [] ++ y)).length x y (Nat.le_refl _)
  unfold convertDefiLinks
  rw [h1]
  exact foldl_linkSub_keeps hr1 hlbid hrbid hnl pats hid x1 y1

/-- Witness for C8 at a concrete input: table `[("x","X")]`, link
`[L](#a)` embedded between `p` and `q`. -/
theorem claim8_unknown_id_link_left_verbatim_witness :
    ∃ x1 y1, convertDefiLinks [(("x").data, ("X").data)]
        (("p").data ++ (linkShape ("a").data ("L").data [] ++ ("q").data))
      = x1 ++ (linkShape ("a").data ("L").data [] ++ y1) :=
  claim8_unknown_id_link_left_verbatim (by decide) (by decide) (by decide)
    (by decide) (by decide) (by decide) (by decide)

/-- The part of a link match from the closing `]` of the label through the
final `)`: `](#id)`. An occurrence of a link for `id` is an occurrence of
this token preceded by a `[` with no `]` in between. -/
def uTok (id : List Char) : List Char :=
  rbrack :: (lpar :: hashc :: (id ++ [rpar]))

/-- A string that ends a valid link prefix: it contains a `[` whose suffix
is free of `]` (the suffix is the label scanned by `[^]]*`). -/
def LinkPre (u : List Char) : Prop :=
  ∃ u1 u2, u = u1 ++ lbrack :: u2 ∧ rbrack ∉ u2

theorem occursLink_iff_uTok {id s : List Char} :
    OccursLink id s ↔ ∃ u v, s = u ++ (uTok id ++ v) ∧ LinkPre u := by
  constructor
  · rintro ⟨x, label, y, hs, hnl⟩
    refine ⟨x ++ lbrack :: label, y, ?_, x, label, rfl, hnl⟩
    rw [hs]
    simp [linkShape, linkTail, uTok]
  · rintro ⟨u, v, hs, u1, u2, hu, hnl⟩
    refine ⟨u1, u2, v, ?_, hnl⟩
    rw [hs, hu]
    simp [linkShape, linkTail, uTok]

theorem linkPre_append_right {Q : List Char} (h : LinkPre Q) (P : List Char) :
    LinkPre (P ++ Q) := by
  obtain ⟨u1, u2, hq, hnl⟩ := h
  exact ⟨P ++ u1, u2, by rw [hq]; simp, hnl⟩

theorem linkPre_of_left {P Q : List Char} (h : LinkPre P) (hnr : rbrack ∉ Q) :
    LinkPre (P ++ Q) := by
  obtain ⟨u1, u2, hp, hnl⟩ := h
  refine ⟨u1, u2 ++ Q, by rw [hp]; simp, ?_⟩
  intro hm
  rcases List.mem_append.mp hm with h1 | h1
  · exact hnl h1
  · exact hnr h1

theorem linkPre_lbrack {u : List Char} (h : LinkPre u) : lbrack ∈ u := by
  obtain ⟨u1, u2, hu, _⟩ := h
  rw [hu]
  simp

theorem linkPre_cons {c : Char} {w : List Char} (h : LinkPre (c :: w)) (hc : c ≠ lbrack) :
    LinkPre w := by
  obtain ⟨u1, u2, hu, hnl⟩ := h
  match u1, hu with
  | [], hu =>
    simp only [List.nil_append, List.cons.injEq] at hu
    exact absurd hu.1 hc
  | a :: u1', hu =>
    simp only [List.cons_append, List.cons.injEq] at hu
    exact ⟨u1', u2, hu.2, hnl⟩

theorem linkPre_append_cases {P Q : List Char} (h : LinkPre (P ++ Q)) :
    LinkPre Q ∨ (LinkPre P ∧ rbrack ∉ Q) := by
  obtain ⟨u1, u2, hpq, hnl⟩ := h
  have hpq' : P ++ Q = u1 ++ ([lbrack] ++ u2) := by rw [hpq]; simp
  rcases append3_cases P Q u1 [lbrack] u2 hpq' with ⟨y1, hA, hy⟩ | ⟨x1, hx, hB⟩
    | ⟨v1, v2, hv, hv1, hv2, hA, hB⟩
  · right
    refine ⟨⟨u1, y1, by rw [hA]; simp, fun hm => hnl (hy.symm ▸ List.mem_append.mpr (Or.inl hm))⟩, ?_⟩
    exact fun hm => hnl (hy.symm ▸ List.mem_append.mpr (Or.inr hm))
  · exact Or.inl ⟨x1, u2, by rw [hB]; simp, hnl⟩
  · exfalso
    have hlv := congrArg List.length hv
    have h1 := List.length_pos.mpr hv1
    have h2 := List.length_pos.mpr hv2
    simp only [List.length_cons, List.length_nil, List.length_append] at hlv
    omega

theorem emOpen_eq : emOpen = ltc :: ("em class=\"dict-emphasis\">").data := by decide

theorem emClose_eq : emClose = ltc :: ("/em>").data := by decide

theorem emph_occ_transfer {Kt : List Char}
    (hund : und ∉ rbrack :: Kt) (hltc : ltc ∉ rbrack :: Kt) :
    ∀ (n : Nat) (s u v : List Char), s.length ≤ n →
      emphSub s = u ++ ((rbrack :: Kt) ++ v) →
      ∃ u2 v2, s = u2 ++ ((rbrack :: Kt) ++ v2)
        ∧ (rbrack ∉ u → rbrack ∉ u2)
        ∧ (LinkPre u → LinkPre u2) := by
  intro n
  induction n with
  | zero =>
    intro s u v hlen hout
    have hs : s = [] := List.length_eq_zero.mp (Nat.le_zero.mp hlen)
    subst hs
    rw [show emphSub [] = [] from rfl] at hout
    simp at hout
  | succ n ih =>
    intro s u v hlen hout
    rcases hsp1 : splitAtFirst und s with _ | ⟨a, b⟩
    · rw [emphSub_no1 hsp1] at hout
      exact ⟨u, v, hout, fun h => h, fun h => h⟩
    · rcases hsp2 : splitAtFirst und b with _ | ⟨c', d⟩
      · rw [emphSub_no2 hsp1 hsp2] at hout
        exact ⟨u, v, hout, fun h => h, fun h => h⟩
      · obtain ⟨hs, hna⟩ := splitAtFirst_eq hsp1
        obtain ⟨hb, hnc⟩ := splitAtFirst_eq hsp2
        by_cases hc : c' = []
        · -- adjacent underscores: no conversion at the first underscore
          subst hc
          rw [List.nil_append] at hb
          rw [emphSub_adj hsp1 hsp2] at hout
          rcases append3_cases _ _ _ _ _ hout with ⟨y1, hA, hy⟩ | ⟨x1, hx, hB⟩
            | ⟨w1, w2, hw, hw1, hw2, hA, hB⟩
          · refine ⟨u, y1 ++ (und :: b), ?_, fun h => h, fun h => h⟩
            rw [hs, hA]
            simp
          · match x1, hx, hB with
            | [], hx, hB =>
              rw [List.nil_append] at hB
              exact absurd (head_mem_left (by simp) hB) hund
            | u0 :: x1', hx, hB =>
              have hu0 : und = u0 := by
                have := hB
                simp only [List.cons_append, List.cons.injEq] at this
                exact this.1
              have hB' : emphSub (und :: d) = x1' ++ ((rbrack :: Kt) ++ v) := by
                have := hB
                simp only [List.cons_append, List.cons.injEq] at this
                exact this.2
              have hlen2 : (und :: d).length ≤ n := by
                have hlens := congrArg List.length hs
                rw [hb] at hlens
                simp only [List.length_append, List.length_cons] at hlens hlen ⊢
                omega
              obtain ⟨u2, v2, hd, himp1, himp2⟩ := ih (und :: d) x1' v hlen2 hB'
              refine ⟨a ++ und :: u2, v2, ?_, ?_, ?_⟩
              · rw [hs, hb, hd]
                simp
              · intro hru
                rw [hx] at hru
                intro hm
                rcases List.mem_append.mp hm with h1 | h1
                · exact hru (List.mem_append.mpr (Or.inl h1))
                rcases List.mem_cons.mp h1 with h2 | h2
                · exact absurd h2 (by decide)
                · exact himp1 (fun hmm => hru (List.mem_append.mpr
                    (Or.inr (List.mem_cons_of_mem _ hmm)))) h2
              · intro hLu
                rw [hx] at hLu
                rcases linkPre_append_cases hLu with hQ | ⟨hPa, hnr⟩
                · have hQ' := linkPre_cons hQ (by rw [← hu0]; decide)
                  have := linkPre_append_right (himp2 hQ') (a ++ [und])
                  simpa using this
                · refine linkPre_of_left hPa ?_
                  intro hm
                  rcases List.mem_cons.mp hm with h2 | h2
                  · exact absurd h2 (by decide)
                  · exact himp1 (fun hmm => hnr (List.mem_cons_of_mem _ hmm)) h2
          · exfalso
            exact hund (hw.symm ▸ List.mem_append.mpr (Or.inr (head_mem_left hw2 hB)))
        · -- conversion at the first frame
          rw [emphSub_conv hsp1 hsp2 hc] at hout
          have hout' : a ++ (emOpen ++ (c' ++ (emClose ++ emphSub d)))
              = u ++ ((rbrack :: Kt) ++ v) := by
            rw [← hout]
            simp
          have hlend : d.length ≤ n := by
            have hlens := congrArg List.length hs
            rw [hb] at hlens
            simp only [List.length_append, List.length_cons] at hlens hlen
            omega
          rcases append3_cases _ _ _ _ _ hout' with ⟨y1, hA1, hy1⟩ | ⟨x1, hx1, hB1⟩
            | ⟨w1, w2, hw, hw1, hw2, hA1, hB1⟩
          · refine ⟨u, y1 ++ (und :: b), ?_, fun h => h, fun h => h⟩
            rw [hs, hA1]
            simp
          · rcases append3_cases _ _ _ _ _ hB1 with ⟨y2, hA2, hy2⟩ | ⟨x2, hx2, hB2⟩
              | ⟨w1, w2, hw, hw1, hw2, hA2, hB2⟩
            · exfalso
              have : rbrack ∈ emOpen := by
                rw [hA2]
                simp
              exact absurd this (by decide)
            · rcases append3_cases _ _ _ _ _ hB2 with ⟨y3, hA3, hy3⟩ | ⟨x3, hx3, hB3⟩
                | ⟨w1, w2, hw, hw1, hw2, hA3, hB3⟩
              · -- token inside c'
                refine ⟨a ++ und :: x2, y3 ++ (und :: d), ?_, ?_, ?_⟩
                · rw [hs, hb, hA3]
                  simp
                · intro hru
                  rw [hx1, hx2] at hru
                  intro hm
                  rcases List.mem_append.mp hm with h1 | h1
                  · exact hru (List.mem_append.mpr (Or.inl h1))
                  rcases List.mem_cons.mp h1 with h2 | h2
                  · exact absurd h2 (by decide)
                  · exact hru (List.mem_append.mpr (Or.inr (List.mem_append.mpr (Or.inr h2))))
                · intro hLu
                  rw [hx1, hx2] at hLu
                  rcases linkPre_append_cases hLu with hQ | ⟨hPa, hnr⟩
                  · rcases linkPre_append_cases hQ with hQ2 | ⟨hPo, _⟩
                    · have := linkPre_append_right hQ2 (a ++ [und])
                      simpa using this
                    · exact absurd (linkPre_lbrack hPo) (by decide)
                  · refine linkPre_of_left hPa ?_
                    intro hm
                    rcases List.mem_cons.mp hm with h2 | h2
                    · exact absurd h2 (by decide)
                    · exact hnr (List.mem_append.mpr (Or.inr h2))
              · rcases append3_cases _ _ _ _ _ hB3 with ⟨y4, hA4, hy4⟩ | ⟨x4, hx4, hB4⟩
                  | ⟨w1, w2, hw, hw1, hw2, hA4, hB4⟩
                · exfalso
                  have : rbrack ∈ emClose := by
                    rw [hA4]
                    simp
                  exact absurd this (by decide)
                · -- token inside the recursive output
                  obtain ⟨u2, v2, hd, himp1, himp2⟩ := ih d x4 v hlend hB4
                  refine ⟨a ++ und :: (c' ++ und :: u2), v2, ?_, ?_, ?_⟩
                  · rw [hs, hb, hd]
                    simp
                  · intro hru
                    rw [hx1, hx2, hx3, hx4] at hru
                    have hna' : rbrack ∉ a := fun hm => hru (List.mem_append.mpr (Or.inl hm))
                    have hnc' : rbrack ∉ c' := fun hm => hru (List.mem_append.mpr (Or.inr
                      (List.mem_append.mpr (Or.inr (List.mem_append.mpr (Or.inl hm))))))
                    have hnx4 : rbrack ∉ x4 := fun hm => hru (List.mem_append.mpr (Or.inr
                      (List.mem_append.mpr (Or.inr (List.mem_append.mpr (Or.inr
                        (List.mem_append.mpr (Or.inr hm))))))))
                    have hnu2 := himp1 hnx4
                    intro hm
                    rcases List.mem_append.mp hm with h1 | h1
                    · exact hna' h1
                    rcases List.mem_cons.mp h1 with h2 | h2
                    · exact absurd h2 (by decide)
                    rcases List.mem_append.mp h2 with h3 | h3
                    · exact hnc' h3
                    rcases List.mem_cons.mp h3 with h4 | h4
                    · exact absurd h4 (by decide)
                    · exact hnu2 h4
                  · intro hLu
                    rw [hx1, hx2, hx3, hx4] at hLu
                    rcases linkPre_append_cases hLu with hQ1 | ⟨hPa, hnr1⟩
                    · rcases linkPre_append_cases hQ1 with hQ2 | ⟨hPo, _⟩
                      · rcases linkPre_append_cases hQ2 with hQ3 | ⟨hPc, hnr3⟩
                        · rcases linkPre_append_cases hQ3 with hQ4 | ⟨hPe, _⟩
                          · have := linkPre_append_right (himp2 hQ4) (a ++ und :: (c' ++ [und]))
                            simpa using this
                          · exact absurd (linkPre_lbrack hPe) (by decide)
                        · have hnx4 : rbrack ∉ x4 :=
                            fun hm => hnr3 (List.mem_append.mpr (Or.inr hm))
                          have hnu2 := himp1 hnx4
                          have h1 : LinkPre (c' ++ (und :: u2)) := linkPre_of_left hPc (by
                            intro hm
                            rcases List.mem_cons.mp hm with h2 | h2
                            · exact absurd h2 (by decide)
                            · exact hnu2 h2)
                          have := linkPre_append_right h1 (a ++ [und])
                          simpa using this
                      · exact absurd (linkPre_lbrack hPo) (by decide)
                    · have hnc' : rbrack ∉ c' := fun hm => hnr1 (List.mem_append.mpr (Or.inr
                        (List.mem_append.mpr (Or.inl hm))))
                      have hnx4 : rbrack ∉ x4 := fun hm => hnr1 (List.mem_append.mpr (Or.inr
                        (List.mem_append.mpr (Or.inr (List.mem_append.mpr (Or.inr hm))))))
                      have hnu2 := himp1 hnx4
                      refine linkPre_of_left hPa ?_
                      intro hm
                      rcases List.mem_cons.mp hm with h2 | h2
                      · exact absurd h2 (by decide)
                      rcases List.mem_append.mp h2 with h3 | h3
                      · exact hnc' h3
                      rcases List.mem_cons.mp h3 with h4 | h4
                      · exact absurd h4 (by decide)
                      · exact hnu2 h4
                · exfalso
                  have : rbrack ∈ emClose := by
                    rw [hA4]
                    exact List.mem_append.mpr (Or.inr (head_mem_left hw1 hw))
                  exact absurd this (by decide)
              · exfalso
                rw [emClose_eq, List.cons_append] at hB3
                exact hltc (hw.symm ▸ List.mem_append.mpr (Or.inr (head_mem_left hw2 hB3)))
            · exfalso
              have : rbrack ∈ emOpen := by
                rw [hA2]
                exact List.mem_append.mpr (Or.inr (head_mem_left hw1 hw))
              exact absurd this (by decide)
          · exfalso
            rw [emOpen_eq, List.cons_append] at hB1
            exact hltc (hw.symm ▸ List.mem_append.mpr (Or.inr (head_mem_left hw2 hB1)))

theorem containsLink_emphSub {id s : List Char} (hund : und ∉ id) (hltc : ltc ∉ id)
    (h : containsLink id s = false) : containsLink id (emphSub s) = false := by
  cases hx : containsLink id (emphSub s) with
  | false => rfl
  | true =>
    exfalso
    have hundK : und ∉ rbrack :: (lpar :: hashc :: (id ++ [rpar])) := by
      intro hm
      rcases List.mem_cons.mp hm with h1 | hm
      · exact absurd h1 (by decide)
      rcases List.mem_cons.mp hm with h1 | hm
      · exact absurd h1 (by decide)
      rcases List.mem_cons.mp hm with h1 | hm
      · exact absurd h1 (by decide)
      rcases List.mem_append.mp hm with h1 | h1
      · exact hund h1
      · rcases List.mem_cons.mp h1 with h2 | h2
        · exact absurd h2 (by decide)
        · cases h2
    have hltcK : ltc ∉ rbrack :: (lpar :: hashc :: (id ++ [rpar])) := by
      intro hm
      rcases List.mem_cons.mp hm with h1 | hm
      · exact absurd h1 (by decide)
      rcases List.mem_cons.mp hm with h1 | hm
      · exact absurd h1 (by decide)
      rcases List.mem_cons.mp hm with h1 | hm
      · exact absurd h1 (by decide)
      rcases List.mem_append.mp hm with h1 | h1
      · exact hltc h1
      · rcases List.mem_cons.mp h1 with h2 | h2
        · exact absurd h2 (by decide)
        · cases h2
    obtain ⟨u, v, huv, hLP⟩ := occursLink_iff_uTok.mp (containsLink_iff.mp hx)
    have huv' : emphSub s = u ++ ((rbrack :: (lpar :: hashc :: (id ++ [rpar]))) ++ v) := huv
    obtain ⟨u2, v2, hsplit, _, himp⟩ :=
      emph_occ_transfer hundK hltcK s.length s u v (Nat.le_refl _) huv'
    have hocc : OccursLink id s := occursLink_iff_uTok.mpr ⟨u2, v2, hsplit, himp hLP⟩
    have htr := containsLink_iff.mpr hocc
    rw [h] at htr
    exact absurd htr (by decide)

/-- The emphasis pass as described by the amended specification: scanning
left to right, text framed by a pair of underscores with no internal
underscore (internal spaces are allowed) is wrapped in
`<em class="dict-emphasis">...</em>`; a pair of adjacent underscores is no
frame (scanning resumes at the second underscore); all other characters
are kept unchanged. -/
def specEmphGo : Nat → List Char → List Char
  | 0, s => s
  | Nat.succ n, s =>
    match splitAtFirst und s with
    | none => s
    | some (a, b) =>
      match splitAtFirst und b with
      | none => s
      | some ([], d) => a ++ und :: specEmphGo n (und :: d)
      | some (c, d) => a ++ emOpen ++ c ++ emClose ++ specEmphGo n d

/-- The amended-specification emphasis pass on a whole text. -/
def specEmphSub (s : List Char) : List Char := specEmphGo s.length s

/-- The emphasis pass as literally described by the original specification
sentence: only a frame whose text has no internal space is converted; a
frame containing a space is left unchanged (scanning resumes at its closing
underscore). -/
def specEmphNoSpaceGo : Nat → List Char → List Char
  | 0, s => s
  | Nat.succ n, s =>
    match splitAtFirst und s with
    | none => s
    | some (a, b) =>
      match splitAtFirst und b with
      | none => s
      | some ([], d) => a ++ und :: specEmphNoSpaceGo n (und :: d)
      | some (c, d) =>
        if spc ∈ c then a ++ und :: specEmphNoSpaceGo n (c ++ und :: d)
        else a ++ emOpen ++ c ++ emClose ++ specEmphNoSpaceGo n d

/-- The original-specification emphasis pass on a whole text. -/
def specEmphNoSpaceSub (s : List Char) : List Char := specEmphNoSpaceGo s.length s

theorem specEmphGo_eq : ∀ (n : Nat) (s : List Char), specEmphGo n s = emphGo n s := by
  intro n
  induction n with
  | zero => intro s; rfl
  | succ n ih =>
    intro s
    rcases h1 : splitAtFirst und s with _ | ⟨a, b⟩
    · simp only [specEmphGo, emphGo, h1]
    · rcases h2 : splitAtFirst und b with _ | ⟨c, d⟩
      · simp only [specEmphGo, emphGo, h1, h2]
      · match c with
        | [] =>
          simp only [specEmphGo, emphGo, h1, h2]
          simp [ih]
        | e :: c' =>
          simp only [specEmphGo, emphGo, h1, h2]
          simp [ih]

theorem specEmphSub_eq {s : List Char} : specEmphSub s = emphSub s := specEmphGo_eq _ _

/-- C5 counterexample: the source regex `([^_]*)_([^_]+)_` allows internal
spaces in the emphasised span. On the input `_a b_` (with an empty pattern
table, so no link matches anything) the code converts the span `a b` even
though it contains a space, whereas the pass described by the
specification ("text framed by underscores, no internal spaces") leaves
`_a b_` unchanged. -/
theorem claim5_space_emphasis_counterexample :
    specEmphNoSpaceSub (("_a b_").data) = ("_a b_").data ∧
    convertDefiLinks [] (("_a b_").data)
      = ("<em class=\"dict-emphasis\">a b</em>").data ∧
    convertDefiLinks [] (("_a b_").data) ≠ specEmphNoSpaceSub (("_a b_").data) := by
  decide

/-- C5 (amended): for an input text in which no link pattern of the table
matches (and whose identifiers contain no underscore and no `<`, as real
identifiers do), `_convert_defi_links` returns the input with exactly the
emphasis substitutions applied, where the emphasis pass converts text
framed by underscores with no internal underscore — internal spaces are
allowed — into styled-emphasis markup and leaves all other characters
unchanged. -/
theorem claim5_no_link_emphasis_only_amended
    {pats : List (List Char × List Char)} {text : List Char}
    (h : ∀ p ∈ pats, containsLink p.1 text = false ∧ und ∉ p.1 ∧ ltc ∉ p.1) :
    convertDefiLinks pats text = specEmphSub text := by
  unfold convertDefiLinks
  rw [specEmphSub_eq]
  exact foldl_linkSub_id
    (fun q hq => containsLink_emphSub (h q hq).2.1 (h q hq).2.2 (h q hq).1)

/-- Witness for the amended C5 at a concrete input: table `[("a","A")]`,
text `_hi_ x` containing no link. -/
theorem claim5_no_link_emphasis_only_amended_witness :
    convertDefiLinks [(("a").data, ("A").data)] (("_hi_ x").data)
      = specEmphSub (("_hi_ x").data) :=
  claim5_no_link_emphasis_only_amended (by decide)
